import Mathlib

/-!  Verification of the runway repository's page-rewriting logic.

The source is `src/components/PageRenderer.tsx` plus the thin Next.js route
files.  Strings are modelled as Lean `String` / `List Char`; the JavaScript
string and regex operations used by the source are implemented below as
executable functions on `List Char`.  Browser primitives that the source
calls (`new URL`, `DOMParser`/`innerHTML`, `JSON.parse`) are modelled
explicitly; each model carries a doc comment describing the simplification.
-/

namespace Runway

/-- ASCII lowercasing, as JavaScript `toLowerCase` and the regex `i` flag
act on ASCII letters. -/
def lowChar (c : Char) : Char :=
  if 'A' ≤ c ∧ c ≤ 'Z' then Char.ofNat (c.toNat + 32) else c

def isDigitCh (c : Char) : Bool := '0' ≤ c && c ≤ '9'

def isAlphaCh (c : Char) : Bool := ('a' ≤ c && c ≤ 'z') || ('A' ≤ c && c ≤ 'Z')

/-- JavaScript regex word character (`\w`): letters, digits, underscore. -/
def isWordCh (c : Char) : Bool := isAlphaCh c || isDigitCh c || c == '_'

/-- JavaScript whitespace (`\s`, `trim`), restricted to the ASCII members. -/
def isWS (c : Char) : Bool :=
  c == ' ' || c == '\t' || c == '\n' || c == '\r' || c == '\x0b' || c == '\x0c'

/-- `p` is a prefix of the second list (JavaScript `startsWith`). -/
def isPref : List Char → List Char → Bool
  | [], _ => true
  | _ :: _, [] => false
  | a :: as, b :: bs => a == b && isPref as bs

/-- Case-insensitive prefix test (regex `i`-flag matching of a literal). -/
def isPrefCI : List Char → List Char → Bool
  | [], _ => true
  | _ :: _, [] => false
  | a :: as, b :: bs => lowChar a == lowChar b && isPrefCI as bs

/-- `sub` occurs somewhere in the second list (JavaScript `includes`). -/
def hasSub (sub : List Char) : List Char → Bool
  | [] => sub.isEmpty
  | c :: t => isPref sub (c :: t) || hasSub sub t

/-- Case-insensitive substring occurrence. -/
def hasSubCI (sub : List Char) : List Char → Bool
  | [] => sub.isEmpty
  | c :: t => isPrefCI sub (c :: t) || hasSubCI sub t

/-- Replace the first occurrence of `p` by `r` (JavaScript `replace` with a
string pattern). -/
def repFirst (p r : List Char) : List Char → List Char
  | [] => []
  | c :: t =>
    if !p.isEmpty && isPref p (c :: t) then r ++ List.drop (p.length - 1) t
    else c :: repFirst p r t

/-- Scanner body of `repAll`: in state `skip+1` the current character belongs
to an already-matched region and is dropped; in state `0` the scanner tests
the pattern at the current position.  Structurally recursive on the input. -/
def repAllGo (p r : List Char) : Nat → List Char → List Char
  | _, [] => []
  | skip + 1, _ :: t => repAllGo p r skip t
  | 0, c :: t =>
    if !p.isEmpty && isPref p (c :: t) then r ++ repAllGo p r (p.length - 1) t
    else c :: repAllGo p r 0 t

/-- Replace every occurrence of `p` by `r`, scanning left to right over the
original input (JavaScript `replace` with a `g`-flagged literal regex). -/
def repAll (p r s : List Char) : List Char := repAllGo p r 0 s

/-- Scanner body of `repAllCI` (case-insensitive matching). -/
def repAllCIGo (p r : List Char) : Nat → List Char → List Char
  | _, [] => []
  | skip + 1, _ :: t => repAllCIGo p r skip t
  | 0, c :: t =>
    if !p.isEmpty && isPrefCI p (c :: t) then r ++ repAllCIGo p r (p.length - 1) t
    else c :: repAllCIGo p r 0 t

/-- Case-insensitive variant of `repAll` (a `gi`-flagged literal regex). -/
def repAllCI (p r s : List Char) : List Char := repAllCIGo p r 0 s

/-- Left word-boundary check for a pattern that starts with a word character:
the preceding character (if any) must not be a word character. -/
def bdryL : Option Char → Bool
  | none => true
  | some c => !isWordCh c

/-- Right word-boundary check for a pattern that ends with a word character. -/
def bdryR : List Char → Bool
  | [] => true
  | c :: _ => !isWordCh c

/-- Scanner body of `repWBCI`: like `repAllCIGo`, additionally tracking the
previous character of the original input for the left word-boundary test. -/
def repWBCIGo (p r : List Char) : Nat → Option Char → List Char → List Char
  | _, _, [] => []
  | skip + 1, _, c :: t => repWBCIGo p r skip (some c) t
  | 0, prev, c :: t =>
    if !p.isEmpty && isPrefCI p (c :: t) && bdryL prev && bdryR (List.drop (p.length - 1) t) then
      r ++ repWBCIGo p r (p.length - 1) (some c) t
    else c :: repWBCIGo p r 0 (some c) t

/-- Replace every word-bounded, case-insensitive occurrence of `p` by `r`
(a `gi`-flagged regex of the shape `\bLITERAL\b` where the literal starts and
ends with word characters).  `prev` is the character preceding the current
scan position in the original string. -/
def repWBCI (p r : List Char) (prev : Option Char) (s : List Char) : List Char :=
  repWBCIGo p r 0 prev s

/-- JavaScript `trim`. -/
def trimStr (s : List Char) : List Char :=
  ((s.dropWhile isWS).reverse.dropWhile isWS).reverse

/-- Take characters up to (excluding) the first occurrence of `sep`
(JavaScript `split(sep)[0]`). -/
def takeUntilCh (sep : Char) : List Char → List Char
  | [] => []
  | c :: t => if c == sep then [] else c :: takeUntilCh sep t

/-- JavaScript `split(sep)` for a single-character separator. -/
def splitOnCh (sep : Char) : List Char → List (List Char)
  | [] => [[]]
  | c :: t =>
    if c == sep then [] :: splitOnCh sep t
    else
      match splitOnCh sep t with
      | [] => [[c]]
      | h :: r => (c :: h) :: r

/-! ## URL parsing model -/

/-- Hostname and pathname of a parsed URL, the two components the source
reads off a `URL` object. -/
structure URLParts where
  hostname : List Char
  pathname : List Char
deriving DecidableEq

/-- Scheme characters per RFC 3986 / WHATWG. -/
def schemeCh (c : Char) : Bool := isAlphaCh c || isDigitCh c || c == '+' || c == '-' || c == '.'

/-- Split a leading `scheme:` off a URL string, lowercasing the scheme. -/
def findScheme (s : List Char) : Option (List Char × List Char) :=
  match s with
  | [] => none
  | c :: _ =>
    if !isAlphaCh c then none
    else
      let sch := s.takeWhile schemeCh
      match s.drop sch.length with
      | ':' :: r => some (sch.map lowChar, r)
      | _ => none

/-- Characters up to the first `?` or `#` (the pathname of a URL excludes
query and fragment). -/
def takeUntilQF (s : List Char) : List Char :=
  s.takeWhile (fun c => c != '?' && c != '#')

/-- Characters allowed in a hostname position (anything before the first
`/`, `?` or `#`). -/
def hostCh (c : Char) : Bool := c != '/' && c != '?' && c != '#'

/-- Parse `host/path...` (the part after `//`): hostname up to the first
`/`, `?` or `#` (lowercased), then the pathname. -/
def parseHostPath (s : List Char) : Option URLParts :=
  if (s.takeWhile hostCh).isEmpty then none
  else
    some ⟨(s.takeWhile hostCh).map lowChar,
      match s.drop (s.takeWhile hostCh).length with
      | '/' :: r => '/' :: takeUntilQF r
      | _ => ['/']⟩

/-- Model of the WHATWG URL primitive `new URL(url, 'https://alluredigital.net')`
used by `getAssetFilename`.  Simplifications: `http`/`https` URLs are parsed
as `scheme://host/path` with the hostname lowercased and no userinfo, port or
percent-decoding handling; any other scheme yields an empty hostname and an
opaque path; scheme-less input is resolved against the base, giving hostname
`alluredigital.net`. -/
def parseURLWithBase (url : String) : Option URLParts :=
  match findScheme url.data with
  | some (sch, rest) =>
    if sch = "http".data ∨ sch = "https".data then
      if isPref "//".data rest then parseHostPath (rest.drop 2) else none
    else
      some ⟨[], takeUntilQF rest⟩
  | none =>
    if isPref "//".data url.data then parseHostPath (url.data.drop 2)
    else if isPref "/".data url.data then some ⟨"alluredigital.net".data, takeUntilQF url.data⟩
    else some ⟨"alluredigital.net".data, '/' :: takeUntilQF url.data⟩

/-! ## getAssetFilename (PageRenderer.tsx lines 10–47) -/

/-- `fullPath.replace(/\//g, '_')`. -/
def underscorePath (l : List Char) : List Char :=
  l.map (fun c => if c == '/' then '_' else c)

/-- `pathname.split('/').filter(p => p)`. -/
def pathSegments (p : List Char) : List (List Char) :=
  (splitOnCh '/' p).filter (fun x => !x.isEmpty)

/-- Body of the `/litespeed/` branch of `getAssetFilename`. -/
def litespeedBranch (u : URLParts) : Option (List Char) :=
  let domain := repFirst "www.".data [] u.hostname
  let fullPath := domain ++ u.pathname
  let filename := underscorePath fullPath
  let filename := takeUntilCh '?' filename
  if filename.isEmpty then none else some filename

/-- Body of the `/wp-content/uploads/` branch of `getAssetFilename`. -/
def uploadsBranch (u : URLParts) : Option (List Char) :=
  let domain := repFirst "www.".data [] u.hostname
  let fullPath := domain ++ u.pathname
  let filename := underscorePath fullPath
  let filename := takeUntilCh '?' filename
  if filename.isEmpty then none else some filename

/-- Body of the general fallthrough branch of `getAssetFilename`. -/
def generalBranch (u : URLParts) : Option (List Char) :=
  let domain := repFirst "www.".data [] u.hostname
  let fullPath := domain ++ u.pathname
  let filename := underscorePath fullPath
  let filename := takeUntilCh '?' filename
  if filename.isEmpty then none else some filename

/-- `getAssetFilename` after URL parsing: segment check, then the three
path-dependent branches. -/
def getAssetFilenameCore (u : URLParts) : Option (List Char) :=
  if (pathSegments u.pathname).isEmpty then none
  else if hasSub "/litespeed/".data u.pathname then litespeedBranch u
  else if hasSub "/wp-content/uploads/".data u.pathname then uploadsBranch u
  else generalBranch u

/-- `getAssetFilename` (PageRenderer.tsx lines 10–47): parse the URL against
the base, return `null` on parse failure (the `catch`), otherwise dispatch on
the pathname. -/
def getAssetFilename (url : String) : Option String :=
  match parseURLWithBase url with
  | none => none
  | some u => (getAssetFilenameCore u).map (fun l => String.mk l)

/-- The asset-naming rule exactly as claims C1/C8 word it: the hostname with
a LEADING `www.` removed, concatenated with the pathname, slashes replaced by
underscores, query suffix stripped; null when the pathname has no non-empty
segments. -/
def claimAssetRule (u : URLParts) : Option (List Char) :=
  if (pathSegments u.pathname).isEmpty then none
  else
    let domain := if isPref "www.".data u.hostname then u.hostname.drop 4 else u.hostname
    some (takeUntilCh '?' (underscorePath (domain ++ u.pathname)))

/-- The asset-naming rule with the correction the code forces: the FIRST
occurrence of `www.` in the hostname is removed (JavaScript
`hostname.replace('www.', '')` replaces the first occurrence anywhere, not
only a leading one); an empty resulting filename also yields null. -/
def amendedAssetRule (u : URLParts) : Option (List Char) :=
  if (pathSegments u.pathname).isEmpty then none
  else
    let filename := takeUntilCh '?' (underscorePath (repFirst "www.".data [] u.hostname ++ u.pathname))
    if filename.isEmpty then none else some filename

/-! ## fixAssetUrl (PageRenderer.tsx lines 169–192) -/

/-- Strip a WordPress size suffix: the `gi`-regex
`-\d+x\d+(\.[a-z]+)$` replaced by its `(\.[a-z]+)` group. -/
def stripSizeSuffix (s : List Char) : List Char :=
  let r := s.reverse
  let ext := r.takeWhile isAlphaCh
  if ext.isEmpty then s
  else
    match r.drop ext.length with
    | '.' :: r2 =>
      let d1 := r2.takeWhile isDigitCh
      if d1.isEmpty then s
      else
        match r2.drop d1.length with
        | 'x' :: r4 =>
          let d2 := r4.takeWhile isDigitCh
          if d2.isEmpty then s
          else
            match r4.drop d2.length with
            | '-' :: r6 => r6.reverse ++ '.' :: ext.reverse
            | _ => s
        | _ => s
    | _ => s

/-- The rimalweb fallback and final fallthrough of `fixAssetUrl`
(PageRenderer.tsx lines 180–191). -/
def fixAssetUrlRim (url : String) : String :=
  if hasSub "rimalweb.net".data url.data || hasSub "Rimalweb.net".data url.data then
    match getAssetFilename (String.mk (repAllCI "rimalweb.net".data "alluredigital.net".data url.data)) with
    | some f => String.mk ("/assets/".data ++ stripSizeSuffix f.data)
    | none => url
  else url

/-- `fixAssetUrl` (PageRenderer.tsx lines 169–192). -/
def fixAssetUrl (url : String) : String :=
  if url.data.isEmpty || isPref "data:".data url.data || isPref "/assets/".data url.data then url
  else if hasSub "alluredigital.net".data url.data || isPref "http".data url.data then
    match getAssetFilename url with
    | some f => String.mk ("/assets/".data ++ stripSizeSuffix f.data)
    | none => fixAssetUrlRim url
  else fixAssetUrlRim url

/-! ## Anchor rewriting (PageRenderer.tsx lines 306–363) -/

/-- Model of `new URL(href)` with no base, as used for anchor hrefs:
`http`/`https` URLs parse as `scheme://host/path`; any other scheme yields an
empty hostname and an opaque path; scheme-less input fails to parse (there is
no base to resolve against). -/
def parseAbsURL (href : String) : Option URLParts :=
  match findScheme href.data with
  | some (sch, rest) =>
    if sch = "http".data ∨ sch = "https".data then
      if isPref "//".data rest then parseHostPath (rest.drop 2) else none
    else
      some ⟨[], takeUntilQF rest⟩
  | none => none

/-- Does the list end with the character `c`? (JavaScript `endsWith`). -/
def endsWithCh (c : Char) (p : List Char) : Bool :=
  match p.reverse with
  | [] => false
  | b :: _ => b == c

/-- `if (path.endsWith('/') && path !== '/') path = path.slice(0, -1)`. -/
def dropTrailSlash (p : List Char) : List Char :=
  if endsWithCh '/' p = true ∧ p ≠ "/".data then p.dropLast else p

/-- The `routeMap` object literal (PageRenderer.tsx lines 326–337). -/
def routeMapList : List (List Char × List Char) :=
  [("/social-media-management".data, "/social-media-management".data),
   ("/local-seo".data, "/local-seo".data),
   ("/ppc-advertising".data, "/ppc-advertising".data),
   ("/wordpress-development".data, "/wordpress-development".data),
   ("/contact-us".data, "/contact-us".data),
   ("/who-we-are".data, "/who-we-are".data),
   ("/portfolio".data, "/portfolio".data),
   ("/work".data, "/work".data),
   ("/blog".data, "/blog".data),
   ("/careers".data, "/careers".data)]

/-- JavaScript object-literal key lookup, `routeMap[path]`. -/
def lookupAssoc : List (List Char × List Char) → List Char → Option (List Char)
  | [], _ => none
  | (k, v) :: t, p => if p = k then some v else lookupAssoc t p

/-- The regex extraction of the `catch` branch:
`href.match(/alluredigital\.net([^?#]*)/)` — the text after the first
occurrence of `alluredigital.net`, up to a `?` or `#`; `none` when the
domain does not occur. -/
def afterDomain : List Char → Option (List Char)
  | [] => none
  | c :: t =>
    if isPref "alluredigital.net".data (c :: t) then
      some (takeUntilQF (List.drop ("alluredigital.net".data.length - 1) t))
    else afterDomain t

/-- The template-literal suffix appended to the style of tel:/mailto:
anchors. -/
def ptrEventsSuffix : List Char := " pointer-events: none; cursor: default;".data

/-- The `catch` branch of the anchor rewriting (PageRenderer.tsx lines
351–361): regex extraction of the path after `alluredigital.net`, trailing
slash removal, `path || '/'`; the href is left unchanged when the extraction
is empty or absent. -/
def fixAnchorCatch (href style : String) : Option String × String :=
  match afterDomain href.data with
  | some p =>
    if p ≠ [] then
      (some (String.mk (if dropTrailSlash p = [] then "/".data else dropTrailSlash p)), style)
    else (some href, style)
  | none => (some href, style)

/-- The per-anchor transformation of PageRenderer.tsx lines 306–363, as a
function from the anchor's `href` and `style` attributes to the resulting
`href` attribute (`none` means removed) and `style` attribute. -/
def fixAnchor (href style : String) : Option String × String :=
  if isPref "tel:".data href.data || isPref "mailto:".data href.data then
    (none, String.mk (trimStr (style.data ++ ptrEventsSuffix)))
  else if hasSub "alluredigital.net".data href.data then
    match parseAbsURL href with
    | some u =>
      (some (String.mk
        (match lookupAssoc routeMapList (dropTrailSlash u.pathname) with
         | some v => v
         | none =>
           if isPref "/blog/".data (dropTrailSlash u.pathname) then dropTrailSlash u.pathname
           else if dropTrailSlash u.pathname = "/".data ∨ dropTrailSlash u.pathname = [] then "/".data
           else dropTrailSlash u.pathname)), style)
    | none => fixAnchorCatch href style
  else (some href, style)

/-- The link normalization exactly as claim C3 words it: the pathname with
any trailing slash removed, `/` when the pathname is `/` or empty. -/
def claimLinkRule (p : List Char) : List Char :=
  if p = [] ∨ p = "/".data then "/".data
  else if endsWithCh '/' p then p.dropLast else p

/-! ## Route handlers (src/app/... page files) -/

/-- Shorthand: one `gi`-flagged literal `replace` step. -/
def rci (p r : String) (s : List Char) : List Char := repAllCI p.data r.data s

/-- Shorthand: one `gi`-flagged `\bLITERAL\b` `replace` step. -/
def rwb (p r : String) (s : List Char) : List Char := repWBCI p.data r.data none s

/-- The replacement chain of the `GoogleAdsManagement` route handler
(src/unnamed/part_000), applied to the file content between the read and the
`PageRenderer` call. -/
def googleAdsRewrite (c : String) : String :=
  String.mk (
    c.data
    |> rci "https://alluredigital.net/ppc-advertising/" "https://alluredigital.net/google-ads-management/"
    |> rci "alluredigital.net/ppc-advertising" "alluredigital.net/google-ads-management"
    |> rci "/ppc-advertising/" "/google-ads-management/"
    |> rci "ppc-advertising" "google-ads-management"
    |> rci "href=\"https://alluredigital.net/ppc-advertising" "href=\"https://alluredigital.net/google-ads-management"
    |> rci "href=\"/ppc-advertising" "href=\"/google-ads-management"
    |> rci "url=https%3A%2F%2Falluredigital.net%2Fppc-advertising" "url=https%3A%2F%2Falluredigital.net%2Fgoogle-ads-management"
    |> rci "PPC specialists use high-end expertise to design, execute and build digital advertising campaigns" "Google Ads specialists use high-end expertise to design, execute and optimize Google advertising campaigns"
    |> rci "A Result Driven PPC Advertising Company" "Expert Google Ads Management Services"
    |> rci "Hire PPC managers to launch the result-driven PPC advertising campaigns" "Hire Google Ads managers to launch result-driven Google Ads campaigns"
    |> rci "Gain Instant Results With Powerful PPC Campaigns" "Gain Instant Results With Powerful Google Ads Campaigns"
    |> rci "Need maximum clicks on your paid advertisements at the best price? Gain instant results with our powerful PPC paid search campaigns" "Need maximum clicks on your paid advertisements at the best price? Gain instant results with our powerful Google Ads campaigns"
    |> rci "If you don\x27t invest your budget in PPC marketing" "If you don\x27t invest your budget in Google Ads marketing"
    |> rci "hire our professional PPC specialists" "hire our professional Google Ads specialists"
    |> rci "PPC Advertising " "Google Ads Management "
    |> rci "PPC Advertising" "Google Ads Management"
    |> rci "PPC paid search campaigns" "Google Ads campaigns"
    |> rci "PPC Campaigns" "Google Ads Campaigns"
    |> rci "PPC specialists" "Google Ads specialists"
    |> rci "PPC managers" "Google Ads managers"
    |> rci "PPC marketing" "Google Ads marketing"
    |> rci "Pay Per Click Advertising" "Google Ads Management"
    |> rci "pay per click advertising" "Google Ads Management"
    |> rci "pay-per-click" "Google Ads"
    |> rci "Pay Per Click" "Google Ads"
    |> rci "pay per click" "Google Ads"
    |> rwb "PPC" "Google Ads")

/-- The replacement chain of the rewrite variant of the `ShopifyDevelopment`
route handler (second source file under src/app/work/setupnyc). -/
def shopifyRewrite (c : String) : String :=
  String.mk (
    c.data
    |> rci "Bricks Builder Development" "Shopify Development"
    |> rci "Bricks Builder" "Shopify"
    |> rci "Bricks Builder Development Services - Fast, Custom Websites" "Shopify Development Services - Custom E-commerce Solutions"
    |> rci "Bricks Builder Development for websites that look great, perform better, and scale with your business" "Shopify Development for e-commerce stores that look great, perform better, and scale with your business"
    |> rci "Built with Bricks Builder: clean, fast, and future-ready" "Built with Shopify: clean, fast, and future-ready"
    |> rci "Build My WordPress Site with Bricks" "Build My Shopify Store"
    |> rci "We are an innovative Brooklyn WordPress Web Development Company specializing in design, development, support &amp; maintenance of WordPress websites" "We are an innovative e-commerce development company specializing in design, development, support & maintenance of Shopify stores"
    |> rci "Bricks Builder Development | Web Development Agency" "Shopify Development | E-commerce Development Agency")

/-- The route handlers of the repository, each as the transformation it
applies to the HTML file content between the `readFileSync` and the
`PageRenderer` call.  All but two are pure pass-throughs. -/
def routeHandlers : List (String × (String → String)) :=
  [("Home", fun c => c),
   ("ContactUs", fun c => c),
   ("Careers", fun c => c),
   ("CRMDevelopment", fun c => c),
   ("AppianDevelopment", fun c => c),
   ("LocalSEO", fun c => c),
   ("ShopifyDevelopmentRoute", fun c => c),
   ("SocialMediaManagement", fun c => c),
   ("SocialMediaManagementAlt", fun c => c),
   ("TechnicalSEO", fun c => c),
   ("BlogPostStrategies", fun c => c),
   ("BlogPostHowItWorks", fun c => c),
   ("WorkCase", fun c => c),
   ("GoogleAdsManagement", googleAdsRewrite),
   ("ShopifyDevelopmentRewrite", shopifyRewrite)]

/-! ## DOM tree model

`removeContactInfo` and `replaceBranding` parse an HTML string into a
detached element (`tempDiv.innerHTML = html`), transform the tree, and read
back `tempDiv.innerHTML`.  The tree, the parser and the serializer below
model those browser primitives. -/

mutual
/-- A DOM node: a text node, or an element with tag (lowercase), attributes
in document order, and children. -/
inductive HNode where
  | htext (s : List Char) : HNode
  | helem (tag : List Char) (attrs : List (List Char × List Char)) (kids : HForest) : HNode
/-- A list of sibling DOM nodes. -/
inductive HForest where
  | fnil : HForest
  | fcons (n : HNode) (f : HForest) : HForest
end

/-- `getAttribute`: the value of the first attribute with the given name. -/
def getAttr (attrs : List (List Char × List Char)) (name : List Char) : Option (List Char) :=
  match attrs with
  | [] => none
  | (n, v) :: t => if n = name then some v else getAttr t name

/-- `hasAttribute`. -/
def hasAttrB (attrs : List (List Char × List Char)) (name : List Char) : Bool :=
  (getAttr attrs name).isSome

/-- `setAttribute`: update the first attribute with the given name, or append
it. -/
def setAttr (attrs : List (List Char × List Char)) (name v : List Char) :
    List (List Char × List Char) :=
  match attrs with
  | [] => [(name, v)]
  | (n, w) :: t => if n = name then (n, v) :: t else (n, w) :: setAttr t name v

/-- `removeAttribute`. -/
def removeAttr (attrs : List (List Char × List Char)) (name : List Char) :
    List (List Char × List Char) :=
  attrs.filter (fun a => a.1 ≠ name)

mutual
/-- `textContent` of a node: the concatenation of all descendant text. -/
def textContentN : HNode → List Char
  | .htext s => s
  | .helem _ _ kids => textContentF kids
termination_by structural n => n
/-- `textContent` of a forest. -/
def textContentF : HForest → List Char
  | .fnil => []
  | .fcons n f => textContentN n ++ textContentF f
termination_by structural f => f
end

/-- The HTML void elements (serialized without a closing tag and parsed
without children). -/
def voidTags : List (List Char) :=
  ["img".data, "br".data, "hr".data, "input".data, "meta".data, "link".data,
   "source".data, "area".data, "base".data, "col".data, "embed".data,
   "track".data, "wbr".data]

/-- Serialize an attribute list as ` name="value"...`. -/
def serAttrs : List (List Char × List Char) → List Char
  | [] => []
  | (n, v) :: t => ' ' :: (n ++ '=' :: '"' :: v ++ '"' :: serAttrs t)

mutual
/-- Model of the `innerHTML` getter: serialize a node.  Simplifications: no
entity re-encoding, attribute values double-quoted. -/
def serN : HNode → List Char
  | .htext s => s
  | .helem tag attrs kids =>
    if tag ∈ voidTags then '<' :: (tag ++ serAttrs attrs ++ ['>'])
    else '<' :: (tag ++ serAttrs attrs ++ ['>']) ++ serF kids ++ '<' :: '/' :: tag ++ ['>']
termination_by structural n => n
/-- Serialize a forest. -/
def serF : HForest → List Char
  | .fnil => []
  | .fcons n f => serN n ++ serF f
termination_by structural f => f
end

/-- Characters allowed in a tag name. -/
def tagCh (c : Char) : Bool := isAlphaCh c || isDigitCh c || c == '-'

/-- Characters allowed in an attribute name. -/
def attrNameCh (c : Char) : Bool :=
  !isWS c && c != '=' && c != '>' && c != '/' && c != '"'

/-- Parse the attribute part of an open tag, consuming through the closing
`>`; attribute names are lowercased, values must be double-quoted (a bare
name yields an empty value). -/
def parseAttrsGo : Nat → List Char → (List (List Char × List Char) × List Char)
  | 0, s => ([], s)
  | fuel + 1, s =>
    match s.dropWhile isWS with
    | [] => ([], [])
    | c :: r =>
      if c = '>' then ([], r)
      else if c = '/' then
        (if isPref ['>'] r then ([], r.drop 1) else parseAttrsGo fuel r)
      else if ((c :: r).takeWhile attrNameCh).isEmpty then parseAttrsGo fuel r
      else if isPref ['=', '"'] ((c :: r).drop ((c :: r).takeWhile attrNameCh).length) then
        ((((c :: r).takeWhile attrNameCh).map lowChar,
            (((c :: r).drop ((c :: r).takeWhile attrNameCh).length).drop 2).takeWhile
              (fun ch => ch != '"')) ::
          (parseAttrsGo fuel
            (((((c :: r).drop ((c :: r).takeWhile attrNameCh).length).drop 2).drop
              ((((c :: r).drop ((c :: r).takeWhile attrNameCh).length).drop 2).takeWhile
                (fun ch => ch != '"')).length).drop 1)).1,
         (parseAttrsGo fuel
            (((((c :: r).drop ((c :: r).takeWhile attrNameCh).length).drop 2).drop
              ((((c :: r).drop ((c :: r).takeWhile attrNameCh).length).drop 2).takeWhile
                (fun ch => ch != '"')).length).drop 1)).2)
      else
        ((((c :: r).takeWhile attrNameCh).map lowChar, []) ::
          (parseAttrsGo fuel ((c :: r).drop ((c :: r).takeWhile attrNameCh).length)).1,
         (parseAttrsGo fuel ((c :: r).drop ((c :: r).takeWhile attrNameCh).length)).2)

/-- Consume a closing tag `</...>` at the head of the input, if present. -/
def dropClose (s : List Char) : List Char :=
  if isPref ['<', '/'] s then ((s.drop 2).dropWhile (fun c => c != '>')).drop 1 else s

/-- Model of the `innerHTML` setter / `DOMParser` for fragments: elements
with double-quoted attributes, text runs, void elements without children; a
stray `<` is treated as text; closing tags are not checked against the open
tag (inputs are assumed well nested).  `fuel` bounds the recursion and
exceeds the input length at the top-level call, so it never runs out. -/
def parseNodesGo : Nat → List Char → (HForest × List Char)
  | 0, s => (HForest.fnil, s)
  | _ + 1, [] => (HForest.fnil, [])
  | fuel + 1, c0 :: rest0 =>
    if c0 = '<' then
      match rest0 with
      | [] => (HForest.fcons (HNode.htext ['<']) HForest.fnil, [])
      | c :: _ =>
        if c = '/' then (HForest.fnil, c0 :: rest0)
        else if isAlphaCh c then
          if (rest0.takeWhile tagCh).map lowChar ∈ voidTags then
            (HForest.fcons
              (HNode.helem ((rest0.takeWhile tagCh).map lowChar)
                (parseAttrsGo (rest0.drop (rest0.takeWhile tagCh).length).length
                  (rest0.drop (rest0.takeWhile tagCh).length)).1
                HForest.fnil)
              (parseNodesGo fuel
                (parseAttrsGo (rest0.drop (rest0.takeWhile tagCh).length).length
                  (rest0.drop (rest0.takeWhile tagCh).length)).2).1,
             (parseNodesGo fuel
                (parseAttrsGo (rest0.drop (rest0.takeWhile tagCh).length).length
                  (rest0.drop (rest0.takeWhile tagCh).length)).2).2)
          else
            (HForest.fcons
              (HNode.helem ((rest0.takeWhile tagCh).map lowChar)
                (parseAttrsGo (rest0.drop (rest0.takeWhile tagCh).length).length
                  (rest0.drop (rest0.takeWhile tagCh).length)).1
                (parseNodesGo fuel
                  (parseAttrsGo (rest0.drop (rest0.takeWhile tagCh).length).length
                    (rest0.drop (rest0.takeWhile tagCh).length)).2).1)
              (parseNodesGo fuel
                (dropClose
                  (parseNodesGo fuel
                    (parseAttrsGo (rest0.drop (rest0.takeWhile tagCh).length).length
                      (rest0.drop (rest0.takeWhile tagCh).length)).2).2)).1,
             (parseNodesGo fuel
                (dropClose
                  (parseNodesGo fuel
                    (parseAttrsGo (rest0.drop (rest0.takeWhile tagCh).length).length
                      (rest0.drop (rest0.takeWhile tagCh).length)).2).2)).2)
        else
          (HForest.fcons (HNode.htext ['<']) (parseNodesGo fuel rest0).1,
           (parseNodesGo fuel rest0).2)
    else
      (HForest.fcons (HNode.htext ((c0 :: rest0).takeWhile (fun ch => ch != '<')))
        (parseNodesGo fuel
          ((c0 :: rest0).drop ((c0 :: rest0).takeWhile (fun ch => ch != '<')).length)).1,
       (parseNodesGo fuel
          ((c0 :: rest0).drop ((c0 :: rest0).takeWhile (fun ch => ch != '<')).length)).2)

/-- Parse an HTML fragment string into a forest. -/
def parseHTML (s : List Char) : HForest := (parseNodesGo (s.length + 1) s).1

/-! ## Regex patterns with character classes (removeContactInfo) -/

/-- A token of the small regex dialect the contact-removal patterns need:
a literal character (matched case-insensitively), a greedy `class*`, or a
greedy `class+`.  The source's patterns never need backtracking: every
`class*`/`class+` is followed by a literal outside the class or ends the
pattern. -/
inductive PTok where
  | lit (c : Char)
  | star (cl : Char → Bool)
  | plus (cl : Char → Bool)

/-- Match a pattern at the head of the input; returns the number of
characters consumed. -/
def matchPat : List PTok → List Char → Option Nat
  | [], _ => some 0
  | .lit _ :: _, [] => none
  | .lit c :: ps, b :: bs =>
    if lowChar c == lowChar b then (matchPat ps bs).map (· + 1) else none
  | .star cl :: ps, s =>
    (matchPat ps (s.drop (s.takeWhile cl).length)).map (· + (s.takeWhile cl).length)
  | .plus cl :: ps, s =>
    if (s.takeWhile cl).length = 0 then none
    else (matchPat ps (s.drop (s.takeWhile cl).length)).map (· + (s.takeWhile cl).length)

/-- Left-to-right global deletion of every match of `pat` (JavaScript
`replace(pat, '')` with a `g` flag): in state `skip+1` the character belongs
to a matched region and is dropped. -/
def gDelGo (pat : List PTok) : Nat → List Char → List Char
  | _, [] => []
  | skip + 1, _ :: t => gDelGo pat skip t
  | 0, c :: t =>
    match matchPat pat (c :: t) with
    | some (k + 1) => gDelGo pat k t
    | some 0 => c :: gDelGo pat 0 t
    | none => c :: gDelGo pat 0 t

/-- Global deletion of every match of `pat`. -/
def gDel (pat : List PTok) (s : List Char) : List Char := gDelGo pat 0 s

/-- Does any position of the input match the pattern? -/
def hasPat (pat : List PTok) : List Char → Bool
  | [] => (matchPat pat []).isSome
  | c :: t => (matchPat pat (c :: t)).isSome || hasPat pat t

/-- Literal tokens of a string. -/
def litToks (s : String) : List PTok := s.data.map PTok.lit

/-- `\s*`. -/
def wsStar : PTok := PTok.star isWS

/-- The character class of the `tel:` removal regex, `[\d\s\-\(\)]`. -/
def telCh (c : Char) : Bool :=
  isDigitCh c || isWS c || c == '-' || c == '(' || c == ')'

/-- The local-part class of the email regexes, `[a-zA-Z0-9._%+-]`. -/
def emailCh (c : Char) : Bool :=
  isAlphaCh c || isDigitCh c || c == '.' || c == '_' || c == '%' || c == '+' || c == '-'

/-- `/\(212\)\s*301-7615/gi`. -/
def phonePat1 : List PTok := litToks "(212)" ++ [wsStar] ++ litToks "301-7615"

/-- `/212-301-7615/gi`. -/
def phonePat2 : List PTok := litToks "212-301-7615"

/-- `/\(212\)\s*301\s*7615/gi`. -/
def phonePat3 : List PTok :=
  litToks "(212)" ++ [wsStar] ++ litToks "301" ++ [wsStar] ++ litToks "7615"

/-- `/212\s*301\s*7615/gi`. -/
def phonePat4 : List PTok :=
  litToks "212" ++ [wsStar] ++ litToks "301" ++ [wsStar] ++ litToks "7615"

/-- `/tel:[\d\s\-\(\)]+/gi`. -/
def telPat : List PTok := litToks "tel:" ++ [PTok.plus telCh]

/-- `/info@alluredigital\.net/gi`. -/
def emailPat1 : List PTok := litToks "info@alluredigital.net"

/-- `/[a-zA-Z0-9._%+-]+@alluredigital\.net/gi`. -/
def emailPat2 : List PTok := PTok.plus emailCh :: litToks "@alluredigital.net"

/-- `/mailto:[a-zA-Z0-9._%+-]+@alluredigital\.net/gi`. -/
def emailPat3 : List PTok :=
  litToks "mailto:" ++ PTok.plus emailCh :: litToks "@alluredigital.net"

/-- `/5300\s*Kings\s*Highway\s*Brooklyn[^<]*/gi`. -/
def addrPat1 : List PTok :=
  litToks "5300" ++ [wsStar] ++ litToks "Kings" ++ [wsStar] ++ litToks "Highway" ++
    [wsStar] ++ litToks "Brooklyn" ++ [PTok.star (fun c => c != '<')]

/-- `/Brooklyn,\s*NY\s*11234/gi`. -/
def addrPat2 : List PTok :=
  litToks "Brooklyn," ++ [wsStar] ++ litToks "NY" ++ [wsStar] ++ litToks "11234"

/-- `/5300\s*Kings\s*Highway/gi` (the DOM-phase variant). -/
def addrPat3 : List PTok :=
  litToks "5300" ++ [wsStar] ++ litToks "Kings" ++ [wsStar] ++ litToks "Highway"

/-- The pattern of the claim: `5300 Kings Highway` followed by `Brooklyn`
(with the source's `\s*` gaps). -/
def addrClaimPat : List PTok :=
  litToks "5300" ++ [wsStar] ++ litToks "Kings" ++ [wsStar] ++ litToks "Highway" ++
    [wsStar] ++ litToks "Brooklyn"

/-- The five text-level replacements of the DOM phase of `removeContactInfo`
(lines 534–538). -/
def domTextClean (s : List Char) : List Char :=
  gDel addrPat2 (gDel addrPat3 (gDel emailPat1 (gDel phonePat2 (gDel phonePat1 s))))

/-- Is the child list exactly one text node?
(`el.childNodes.length === 1 && el.childNodes[0].nodeType === 3`). -/
def isSingleTextChild : HForest → Bool
  | .fcons (.htext _) .fnil => true
  | _ => false

mutual
/-- The DOM phase of `removeContactInfo` (lines 529–544): for every element
(document order), if its `textContent` is non-empty, run the five
replacements; if the text changed and the element has exactly one text child,
assign the trimmed text back; otherwise recurse.  The assignment only happens
on elements with a single text child, so the element snapshot taken by
`querySelectorAll('*')` is structurally stable and the pass is equivalent to
this recursion. -/
def contactDomN : HNode → HNode
  | .htext s => .htext s
  | .helem tag attrs kids =>
    if textContentF kids ≠ [] then
      if domTextClean (textContentF kids) ≠ textContentF kids ∧ isSingleTextChild kids then
        .helem tag attrs (HForest.fcons (.htext (trimStr (domTextClean (textContentF kids)))) .fnil)
      else .helem tag attrs (contactDomF kids)
    else .helem tag attrs (contactDomF kids)
termination_by structural n => n
/-- The DOM phase over a forest. -/
def contactDomF : HForest → HForest
  | .fnil => .fnil
  | .fcons n f => .fcons (contactDomN n) (contactDomF f)
termination_by structural f => f
end

/-- The string phase of `removeContactInfo` (lines 513–526): ten global
regex deletions in source order. -/
def contactStringPhase (s : List Char) : List Char :=
  gDel addrPat2 (gDel addrPat1 (gDel emailPat3 (gDel emailPat2 (gDel emailPat1
    (gDel telPat (gDel phonePat4 (gDel phonePat3 (gDel phonePat2 (gDel phonePat1 s)))))))))

/-- `removeContactInfo` (PageRenderer.tsx lines 511–545): the string phase,
then the DOM phase over the parsed fragment, serialized back. -/
def removeContactInfo (html : String) : String :=
  String.mk (serF (contactDomF (parseHTML (contactStringPhase html.data))))

/-- A character that no contact pattern can be built from: neither a decimal
digit nor `@`.  Every pattern removed by `removeContactInfo` contains a digit
or an `@`. -/
def cleanCh (c : Char) : Bool := !isDigitCh c && c != '@'

/-- All attribute names and values consist of clean characters. -/
def attrsClean (attrs : List (List Char × List Char)) : Bool :=
  attrs.all (fun a => a.1.all cleanCh && a.2.all cleanCh)

mutual
/-- Every character of the node (text, tag, attributes) is clean. -/
def cleanN : HNode → Bool
  | .htext s => s.all cleanCh
  | .helem tag attrs kids => tag.all cleanCh && attrsClean attrs && cleanF kids
termination_by structural n => n
/-- Every character of the forest is clean. -/
def cleanF : HForest → Bool
  | .fnil => true
  | .fcons n f => cleanN n && cleanF f
termination_by structural f => f
end

/-! ## replaceBranding (PageRenderer.tsx lines 366–508) -/

/-- Split a class attribute value into whitespace-separated tokens
(`acc` holds the current token reversed). -/
def splitWSGo (acc : List Char) : List Char → List (List Char)
  | [] => if acc = [] then [] else [acc.reverse]
  | c :: t =>
    if isWS c then
      if acc = [] then splitWSGo [] t else acc.reverse :: splitWSGo [] t
    else splitWSGo (c :: acc) t

/-- The whitespace-separated tokens of a string. -/
def splitWS (s : List Char) : List (List Char) := splitWSGo [] s

/-- The element's class attribute value (empty when absent). -/
def classAttr (attrs : List (List Char × List Char)) : List Char :=
  (getAttr attrs "class".data).getD []

/-- CSS class selector `.token` (case-sensitive token match). -/
def hasClassToken (attrs : List (List Char × List Char)) (tok : List Char) : Bool :=
  decide (tok ∈ splitWS (classAttr attrs))

/-- CSS attribute selector `[class*="sub"]` (case-sensitive substring). -/
def classContains (attrs : List (List Char × List Char)) (sub : List Char) : Bool :=
  hasSub sub (classAttr attrs)

/-- The three word-bounded brand replacements (`\bAllure Digital\b`,
`\bAllureDigital\b`, `\ballure digital\b`, all `gi`, to `Rimalweb`),
applied in source order. -/
def brandReplace (s : List Char) : List Char :=
  repWBCI "allure digital".data "Rimalweb".data none
    (repWBCI "AllureDigital".data "Rimalweb".data none
      (repWBCI "Allure Digital".data "Rimalweb".data none s))

/-- The two unbounded brand replacements used for titles, alt text and data
attributes (lines 427–430, 437–439, 500–502). -/
def brandReplaceCI (s : List Char) : List Char :=
  repAllCI "AllureDigital".data "Rimalweb".data
    (repAllCI "Allure Digital".data "Rimalweb".data s)

/-- The meta-content branding replacement of the head-injection phase
(lines 129–133): the three brand names and additionally the domain. -/
def metaContentReplace (content : List Char) : List Char :=
  repAllCI "alluredigital.net".data "rimalweb.com".data
    (repAllCI "allure digital".data "Rimalweb".data
      (repAllCI "AllureDigital".data "Rimalweb".data
        (repAllCI "Allure Digital".data "Rimalweb".data content)))

/-- The URL-likeness guard of the tree walker (lines 405–408): the text is
left alone when it contains `http(s)://`, `/assets/`, an asset file
extension, or starts with a single `/`. -/
def urlLike (s : List Char) : Bool :=
  hasSubCI "http://".data s || hasSubCI "https://".data s ||
  hasSub "/assets/".data s ||
  hasSubCI ".png".data s || hasSubCI ".jpg".data s || hasSubCI ".jpeg".data s ||
  hasSubCI ".gif".data s || hasSubCI ".svg".data s || hasSubCI ".css".data s ||
  hasSubCI ".js".data s ||
  (match s with
   | '/' :: c :: _ => c != '/'
   | _ => false)

/-- The context of a node during the tree walk: its parent element's tag and
src/href attributes, and whether the parent has an `img` respectively an
`a[href]` among its ancestors-or-self (`parent.closest(...)`). -/
structure WalkCtx where
  parentTag : List Char
  parentHasSrc : Bool
  parentHasHref : Bool
  underImg : Bool
  underAHref : Bool
deriving DecidableEq

/-- The context seen by the children of an element with the given tag and
attributes. -/
def childCtx (tag : List Char) (attrs : List (List Char × List Char)) (ctx : WalkCtx) :
    WalkCtx :=
  ⟨tag, hasAttrB attrs "src".data, hasAttrB attrs "href".data,
   (tag = "img".data) || ctx.underImg,
   (tag = "a".data && hasAttrB attrs "href".data) || ctx.underAHref⟩

/-- The context at the root of the detached `tempDiv`. -/
def rootCtx : WalkCtx := ⟨"div".data, false, false, false, false⟩

/-- The walker's skip conditions (lines 385–398): parent is
script/style/noscript; parent carries `src` and is not an anchor; parent is
inside an `img` without an enclosing `a[href]`; parent carries `href` and is
not an anchor. -/
def skipText (ctx : WalkCtx) : Bool :=
  ctx.parentTag = "script".data || ctx.parentTag = "style".data ||
  ctx.parentTag = "noscript".data ||
  (ctx.parentHasSrc && !(ctx.parentTag = "a".data)) ||
  (ctx.underImg && !ctx.underAHref) ||
  (ctx.parentHasHref && !(ctx.parentTag = "a".data))

mutual
/-- Pass 1 of `replaceBranding`: the TreeWalker over text nodes
(lines 372–422). -/
def walkN (ctx : WalkCtx) : HNode → HNode
  | .htext s =>
    if skipText ctx then .htext s
    else if urlLike s then .htext s
    else .htext (brandReplace s)
  | .helem tag attrs kids => .helem tag attrs (walkF (childCtx tag attrs ctx) kids)
termination_by structural n => n
/-- Pass 1 over a forest. -/
def walkF (ctx : WalkCtx) : HForest → HForest
  | .fnil => .fnil
  | .fcons n f => .fcons (walkN ctx n) (walkF ctx f)
termination_by structural f => f
end

mutual
/-- Pass 2: `title` elements get the unbounded replacements on their text
(lines 425–431). -/
def titleN : HNode → HNode
  | .htext s => .htext s
  | .helem tag attrs kids =>
    if tag = "title".data ∧ textContentF kids ≠ [] then
      .helem tag attrs (HForest.fcons (.htext (brandReplaceCI (textContentF kids))) .fnil)
    else .helem tag attrs (titleF kids)
termination_by structural n => n
/-- Pass 2 over a forest. -/
def titleF : HForest → HForest
  | .fnil => .fnil
  | .fcons n f => .fcons (titleN n) (titleF f)
termination_by structural f => f
end

mutual
/-- Pass 3: `img[alt]` elements whose alt mentions the brand get the
unbounded replacements on the alt attribute (lines 434–441). -/
def altN : HNode → HNode
  | .htext s => .htext s
  | .helem tag attrs kids =>
    if tag = "img".data then
      match getAttr attrs "alt".data with
      | some alt =>
        if hasSub "Allure".data alt || hasSub "allure".data alt then
          .helem tag (setAttr attrs "alt".data (brandReplaceCI alt)) (altF kids)
        else .helem tag attrs (altF kids)
      | none => .helem tag attrs (altF kids)
    else .helem tag attrs (altF kids)
termination_by structural n => n
/-- Pass 3 over a forest. -/
def altF : HForest → HForest
  | .fnil => .fnil
  | .fcons n f => .fcons (altN n) (altF f)
termination_by structural f => f
end

/-- The heading selector of pass 4:
`h1, h2, h3, h4, h5, h6, .elementor-heading-title, .bdt-ep-hover-box-title,
[class*="heading"]`. -/
def isHeadingSel (tag : List Char) (attrs : List (List Char × List Char)) : Bool :=
  tag = "h1".data || tag = "h2".data || tag = "h3".data ||
  tag = "h4".data || tag = "h5".data || tag = "h6".data ||
  hasClassToken attrs "elementor-heading-title".data ||
  hasClassToken attrs "bdt-ep-hover-box-title".data ||
  classContains attrs "heading".data

mutual
/-- Pass 4: heading-like elements whose `textContent` changes under the
word-bounded replacements get it assigned back, flattening their children
(lines 444–456); unchanged or non-matching elements are recursed into (the
snapshot processes nested matches, and a flattened element's former
descendants are detached, so the recursion is equivalent). -/
def headingN : HNode → HNode
  | .htext s => .htext s
  | .helem tag attrs kids =>
    if isHeadingSel tag attrs ∧ textContentF kids ≠ [] ∧
        brandReplace (textContentF kids) ≠ textContentF kids then
      .helem tag attrs (HForest.fcons (.htext (brandReplace (textContentF kids))) .fnil)
    else .helem tag attrs (headingF kids)
termination_by structural n => n
/-- Pass 4 over a forest. -/
def headingF : HForest → HForest
  | .fnil => .fnil
  | .fcons n f => .fcons (headingN n) (headingF f)
termination_by structural f => f
end

/-- Does the forest contain no element node (`el.children.length === 0`)? -/
def noElemKids : HForest → Bool
  | .fnil => true
  | .fcons (.htext _) f => noElemKids f
  | .fcons (.helem _ _ _) _ => false

mutual
/-- Pass 5: `span, div, p, li` elements outside an `img`-without-link whose
`textContent` changes: leaves get the text assigned back (flattening text
children into one), others get their direct text children replaced
individually; nested matching elements are processed by the snapshot, which
the recursion mirrors (lines 459–493). -/
def sdplN (ctx : WalkCtx) : HNode → HNode
  | .htext s => .htext s
  | .helem tag attrs kids =>
    if (tag = "span".data ∨ tag = "div".data ∨ tag = "p".data ∨ tag = "li".data) ∧
        ¬(((tag = "img".data) || ctx.underImg) &&
          !((tag = "a".data && hasAttrB attrs "href".data) || ctx.underAHref)) = true ∧
        textContentF kids ≠ [] ∧
        brandReplace (textContentF kids) ≠ textContentF kids then
      if noElemKids kids then
        .helem tag attrs (HForest.fcons (.htext (brandReplace (textContentF kids))) .fnil)
      else .helem tag attrs (sdplMixedF (childCtx tag attrs ctx) kids)
    else .helem tag attrs (sdplF (childCtx tag attrs ctx) kids)
termination_by structural n => n
/-- Pass 5 over a forest (plain recursion). -/
def sdplF (ctx : WalkCtx) : HForest → HForest
  | .fnil => .fnil
  | .fcons n f => .fcons (sdplN ctx n) (sdplF ctx f)
termination_by structural f => f
/-- Pass 5 over the children of a matched element with element children:
direct text nodes get the word-bounded replacements, element children are
processed as snapshot members. -/
def sdplMixedF (ctx : WalkCtx) : HForest → HForest
  | .fnil => .fnil
  | .fcons (.htext s) f => .fcons (.htext (brandReplace s)) (sdplMixedF ctx f)
  | .fcons (.helem tag attrs kids) f =>
    .fcons (sdplN ctx (.helem tag attrs kids)) (sdplMixedF ctx f)
termination_by structural f => f
end

/-- One data-attribute update of pass 6: replace when present and
brand-mentioning. -/
def dataAttrStep (name : List Char) (attrs : List (List Char × List Char)) :
    List (List Char × List Char) :=
  match getAttr attrs name with
  | some v =>
    if hasSub "Allure".data v || hasSub "allure".data v then
      setAttr attrs name (brandReplaceCI v)
    else attrs
  | none => attrs

mutual
/-- Pass 6: `data-title`, `data-text`, `data-content` attributes that mention
the brand get the unbounded replacements (lines 496–505). -/
def dataN : HNode → HNode
  | .htext s => .htext s
  | .helem tag attrs kids =>
    .helem tag (dataAttrStep "data-content".data
      (dataAttrStep "data-text".data (dataAttrStep "data-title".data attrs))) (dataF kids)
termination_by structural n => n
/-- Pass 6 over a forest. -/
def dataF : HForest → HForest
  | .fnil => .fnil
  | .fcons n f => .fcons (dataN n) (dataF f)
termination_by structural f => f
end

/-- The six passes of `replaceBranding` over a parsed fragment, in source
order. -/
def replaceBrandingF (f : HForest) : HForest :=
  dataF (sdplF rootCtx (headingF (altF (titleF (walkF rootCtx f)))))

/-- `replaceBranding` (PageRenderer.tsx lines 366–508): parse into a detached
div, apply the six passes, serialize back. -/
def replaceBranding (html : String) : String :=
  String.mk (serF (replaceBrandingF (parseHTML html.data)))

mutual
/-- The text nodes of a node, each with the context the walker sees it in,
in document order. -/
def textsN (ctx : WalkCtx) : HNode → List (WalkCtx × List Char)
  | .htext s => [(ctx, s)]
  | .helem tag attrs kids => textsF (childCtx tag attrs ctx) kids
termination_by structural n => n
/-- The text nodes of a forest with their contexts. -/
def textsF (ctx : WalkCtx) : HForest → List (WalkCtx × List Char)
  | .fnil => []
  | .fcons n f => textsN ctx n ++ textsF ctx f
termination_by structural f => f
end

/-- The src/href values among an attribute list. -/
def attrSHVals (attrs : List (List Char × List Char)) : List (List Char) :=
  attrs.filterMap (fun a => if a.1 = "src".data ∨ a.1 = "href".data then some a.2 else none)

mutual
/-- All src/href attribute values in a node. -/
def shValsN : HNode → List (List Char)
  | .htext _ => []
  | .helem _ attrs kids => attrSHVals attrs ++ shValsF kids
termination_by structural n => n
/-- All src/href attribute values in a forest. -/
def shValsF : HForest → List (List Char)
  | .fnil => []
  | .fcons n f => shValsN n ++ shValsF f
termination_by structural f => f
end

/-- The per-text-node rule of the walker pass, for the claim: the text is kept
when one of the walker's skip conditions holds on its context or it is
URL-like, and gets the word-bounded brand replacements otherwise. -/
def brandTextRule (p : WalkCtx × List Char) : WalkCtx × List Char :=
  (p.1, if skipText p.1 || urlLike p.2 then p.2 else brandReplace p.2)

/-! ## The data-settings rewrite (PageRenderer.tsx lines 551–633)

`bodyHtml.replace(/data-settings="([^"]*)"/gi, (match, jsonStr) => ...)`:
per captured attribute value, entity-decode, JSON-parse (on failure: fix
URLs in the raw string), slideshow special-case, recursive URL fix,
stringify, re-encode; the outer catch returns the original match.  We model
the per-value callback.  Simplifications: JSON numbers are kept as their
source literals (JS would re-normalize them on stringify), and `new URL`
percent-encoding of unusual characters is not modelled. -/

/-- HTML entity decoding of the captured value (lines 555–561, `&amp;`
first). -/
def decodeEntities (s : List Char) : List Char :=
  repAll "&#x27;".data "\x27".data
    (repAll "&#39;".data "\x27".data
      (repAll "&gt;".data ">".data
        (repAll "&lt;".data "<".data
          (repAll "&quot;".data "\"".data
            (repAll "&amp;".data "&".data s)))))

/-- Attribute re-encoding of the fixed JSON (lines 620–626, `&` first). -/
def encodeEntities (s : List Char) : List Char :=
  repAll ">".data "&gt;".data
    (repAll "<".data "&lt;".data
      (repAll "\x27".data "&#39;".data
        (repAll "\"".data "&quot;".data
          (repAll "&".data "&amp;".data s))))

mutual
/-- A JSON value (`JSON.parse` result); arrays and objects are mutual
inductives so that all recursions stay structural. -/
inductive JVal where
  | jnull
  | jbool (b : Bool)
  | jnum (lit : List Char)
  | jstr (s : List Char)
  | jarr (xs : JArr)
  | jobj (fs : JObj)
inductive JArr where
  | anil
  | acons (v : JVal) (t : JArr)
inductive JObj where
  | onil
  | ocons (k : List Char) (v : JVal) (t : JObj)
end

/-- JSON whitespace. -/
def jws (c : Char) : Bool := c = ' ' || c = '\t' || c = '\n' || c = '\r'

/-- Characters that can continue a JSON number literal. -/
def jnumCh (c : Char) : Bool :=
  isDigitCh c || c = '-' || c = '+' || c = '.' || c = 'e' || c = 'E'

/-- Does the literal satisfy the JSON number grammar
`-?(0|[1-9][0-9]*)(\.[0-9]+)?([eE][+-]?[0-9]+)?`? -/
def numOK (l : List Char) : Bool :=
  match (match (if isPref ['-'] l then l.drop 1 else l) with
         | '0' :: r => some r
         | c :: r => if isDigitCh c then some (r.dropWhile isDigitCh) else none
         | [] => none) with
  | none => false
  | some r2 =>
    match (match r2 with
           | '.' :: r3 =>
             if (r3.takeWhile isDigitCh).isEmpty then none
             else some (r3.dropWhile isDigitCh)
           | _ => some r2) with
    | none => false
    | some r4 =>
      match r4 with
      | [] => true
      | e :: r5 =>
        if e = 'e' ∨ e = 'E' then
          !((if isPref ['+'] r5 ∨ isPref ['-'] r5 then r5.drop 1 else r5).takeWhile
              isDigitCh).isEmpty &&
          ((if isPref ['+'] r5 ∨ isPref ['-'] r5 then r5.drop 1 else r5).dropWhile
              isDigitCh).isEmpty
        else false

/-- The value of a hexadecimal digit. -/
def hexVal (c : Char) : Option Nat :=
  if isDigitCh c then some (c.toNat - 48)
  else if 'a' ≤ c ∧ c ≤ 'f' then some (c.toNat - 87)
  else if 'A' ≤ c ∧ c ≤ 'F' then some (c.toNat - 55)
  else none

/-- Parse a JSON string body after the opening quote: returns the decoded
content and the remainder after the closing quote. -/
def jparseStr : List Char → Option (List Char × List Char)
  | [] => none
  | '"' :: r => some ([], r)
  | '\\' :: e :: r =>
    if e = '"' ∨ e = '\\' ∨ e = '/' then
      match jparseStr r with
      | some (str, rest) => some (e :: str, rest)
      | none => none
    else if e = 'n' ∨ e = 't' ∨ e = 'r' ∨ e = 'b' ∨ e = 'f' then
      match jparseStr r with
      | some (str, rest) =>
        some ((if e = 'n' then '\n' else if e = 't' then '\t'
               else if e = 'r' then '\r' else if e = 'b' then Char.ofNat 8
               else Char.ofNat 12) :: str, rest)
      | none => none
    else if e = 'u' then
      match r with
      | h1 :: h2 :: h3 :: h4 :: r2 =>
        match hexVal h1, hexVal h2, hexVal h3, hexVal h4 with
        | some a, some b, some c, some d =>
          match jparseStr r2 with
          | some (str, rest) =>
            some (Char.ofNat (a * 4096 + b * 256 + c * 16 + d) :: str, rest)
          | none => none
        | _, _, _, _ => none
      | _ => none
    else none
  | c :: r =>
    if c.toNat < 32 then none
    else
      match jparseStr r with
      | some (str, rest) => some (c :: str, rest)
      | none => none

mutual
/-- Fuel-indexed JSON value parser (model of `JSON.parse`); the fuel only
bounds nesting, `2 * length + 2` always suffices. -/
def jparseV : Nat → List Char → Option (JVal × List Char)
  | 0, _ => none
  | fuel + 1, s =>
    match s.dropWhile jws with
    | [] => none
    | c :: r =>
      if c = 'n' then
        if isPref "ull".data r then some (.jnull, r.drop 3) else none
      else if c = 't' then
        if isPref "rue".data r then some (.jbool true, r.drop 3) else none
      else if c = 'f' then
        if isPref "alse".data r then some (.jbool false, r.drop 4) else none
      else if c = '"' then
        match jparseStr r with
        | some (str, rest) => some (.jstr str, rest)
        | none => none
      else if c = '[' then
        match r.dropWhile jws with
        | ']' :: r2 => some (.jarr .anil, r2)
        | _ =>
          match jparseItems fuel r with
          | some (items, r2) => some (.jarr items, r2)
          | none => none
      else if c = '\x7b' then
        match r.dropWhile jws with
        | '\x7d' :: r2 => some (.jobj .onil, r2)
        | _ =>
          match jparseFields fuel r with
          | some (fs, r2) => some (.jobj fs, r2)
          | none => none
      else if isDigitCh c || c = '-' then
        if numOK ((c :: r).takeWhile jnumCh) then
          some (.jnum ((c :: r).takeWhile jnumCh),
            (c :: r).drop ((c :: r).takeWhile jnumCh).length)
        else none
      else none
termination_by structural fuel _ => fuel
/-- Comma-separated array items up to `]`. -/
def jparseItems : Nat → List Char → Option (JArr × List Char)
  | 0, _ => none
  | fuel + 1, s =>
    match jparseV fuel s with
    | none => none
    | some (v, rest) =>
      match rest.dropWhile jws with
      | ',' :: r2 =>
        match jparseItems fuel r2 with
        | some (tl, r3) => some (.acons v tl, r3)
        | none => none
      | ']' :: r2 => some (.acons v .anil, r2)
      | _ => none
termination_by structural fuel _ => fuel
/-- Comma-separated `"key": value` fields up to the closing brace. -/
def jparseFields : Nat → List Char → Option (JObj × List Char)
  | 0, _ => none
  | fuel + 1, s =>
    match s.dropWhile jws with
    | '"' :: r =>
      match jparseStr r with
      | none => none
      | some (key, rest) =>
        match rest.dropWhile jws with
        | ':' :: r2 =>
          match jparseV fuel r2 with
          | none => none
          | some (v, r3) =>
            match r3.dropWhile jws with
            | ',' :: r4 =>
              match jparseFields fuel r4 with
              | some (tl, r5) => some (.ocons key v tl, r5)
              | none => none
            | '\x7d' :: r4 => some (.ocons key v .onil, r4)
            | _ => none
        | _ => none
    | _ => none
termination_by structural fuel _ => fuel
end

/-- `JSON.parse`: parse one value and require only whitespace after it. -/
def jsonParse (s : List Char) : Option JVal :=
  match jparseV (2 * s.length + 2) s with
  | some (v, rest) => if (rest.dropWhile jws).isEmpty then some v else none
  | none => none

/-- A hexadecimal digit character (lower case, as `JSON.stringify` emits). -/
def hexDig (n : Nat) : Char :=
  if n < 10 then Char.ofNat (48 + n) else Char.ofNat (87 + n)

/-- `JSON.stringify` string escaping. -/
def jescape : List Char → List Char
  | [] => []
  | c :: t =>
    (if c = '"' then ['\\', '"']
     else if c = '\\' then ['\\', '\\']
     else if c = '\n' then ['\\', 'n']
     else if c = '\r' then ['\\', 'r']
     else if c = '\t' then ['\\', 't']
     else if c = Char.ofNat 8 then ['\\', 'b']
     else if c = Char.ofNat 12 then ['\\', 'f']
     else if c.toNat < 32 then
       ['\\', 'u', '0', '0', hexDig (c.toNat / 16), hexDig (c.toNat % 16)]
     else [c]) ++ jescape t

mutual
/-- `JSON.stringify` (no spacing; numbers emitted as their kept literals). -/
def jstringify : JVal → List Char
  | .jnull => "null".data
  | .jbool true => "true".data
  | .jbool false => "false".data
  | .jnum l => l
  | .jstr s => '"' :: (jescape s ++ ['"'])
  | .jarr xs => '[' :: (jstringifyArr xs ++ [']'])
  | .jobj fs => '\x7b' :: (jstringifyObj fs ++ ['\x7d'])
termination_by structural v => v
/-- Stringify array items, comma-separated. -/
def jstringifyArr : JArr → List Char
  | .anil => []
  | .acons v .anil => jstringify v
  | .acons v t => jstringify v ++ ',' :: jstringifyArr t
termination_by structural xs => xs
/-- Stringify object fields, comma-separated. -/
def jstringifyObj : JObj → List Char
  | .onil => []
  | .ocons k v .onil => '"' :: (jescape k ++ '"' :: ':' :: jstringify v)
  | .ocons k v t =>
    ('"' :: (jescape k ++ '"' :: ':' :: jstringify v)) ++ ',' :: jstringifyObj t
termination_by structural fs => fs
end

/-- Characters allowed in the optional subdomain group `[^"\/]+` of the
domain-URL regex. -/
def urlBodyCh (c : Char) : Bool := c != '"' && c != '/'

/-- Does `s` start with `(alluredigital|rimalweb)\.net` (case-insensitive)?
Returns whether the rimalweb alternative matched and the matched length. -/
def domAt (s : List Char) : Option (Bool × Nat) :=
  if isPrefCI "alluredigital.net".data s then some (false, 17)
  else if isPrefCI "rimalweb.net".data s then some (true, 12)
  else none

/-- Backtracking search for the start of the domain inside the `[^"\/]*`
window after `://`: the greedy `([^"\/]+\.)?` group prefers the largest
offset; a nonzero offset requires a preceding dot and a nonempty group. -/
def downSearch : Nat → List Char → Option (Nat × Bool × Nat)
  | 0, s =>
    match domAt s with
    | some (ri, dl) => some (0, ri, dl)
    | none => none
  | k + 1, s =>
    if s[k]? = some '.' ∧ 1 ≤ k then
      match domAt (s.drop (k + 1)) with
      | some (ri, dl) => some (k + 1, ri, dl)
      | none => downSearch k s
    else downSearch k s

/-- Try the regex `https?:\/\/([^"\/]+\.)?(alluredigital|rimalweb)\.net([^"]*)`
at the start of `s`, given the matched protocol length: returns the full
match length and its replacement `fixAssetUrl(urlToFix)` (lines 569–575,
584–589). -/
def tryUrlCore (plen : Nat) (s : List Char) : Option (Nat × List Char) :=
  match downSearch ((s.drop plen).takeWhile urlBodyCh).length (s.drop plen) with
  | none => none
  | some (p, ri, dl) =>
    some (plen + p + dl + (((s.drop plen).drop (p + dl)).takeWhile (fun c => c != '"')).length,
      (fixAssetUrl (String.mk (if ri then
        repAllCI "rimalweb.net".data "alluredigital.net".data
          (s.take (plen + p + dl +
            (((s.drop plen).drop (p + dl)).takeWhile (fun c => c != '"')).length))
        else s.take (plen + p + dl +
          (((s.drop plen).drop (p + dl)).takeWhile (fun c => c != '"')).length)))).data)

/-- Try the domain-URL regex at the start of `s`. -/
def tryUrl (s : List Char) : Option (Nat × List Char) :=
  if isPrefCI "https://".data s then tryUrlCore 8 s
  else if isPrefCI "http://".data s then tryUrlCore 7 s
  else none

/-- JSON escaping of the replacement in the raw (invalid-JSON) branch
(line 575): `\` then `"`. -/
def escJson (s : List Char) : List Char :=
  repAll "\"".data "\\\"".data (repAll "\\".data "\\\\".data s)

/-- Scanner of the global domain-URL replacement; `esc` selects the raw
branch's extra JSON escaping of replacements. -/
def rduGo (esc : Bool) : Nat → List Char → List Char
  | _, [] => []
  | skip + 1, _ :: t => rduGo esc skip t
  | 0, c :: t =>
    match tryUrl (c :: t) with
    | some (mlen, rep) => (if esc then escJson rep else rep) ++ rduGo esc (mlen - 1) t
    | none => c :: rduGo esc 0 t

/-- The global `https?://...(alluredigital|rimalweb).net...` replacement. -/
def replaceDomainUrls (esc : Bool) (s : List Char) : List Char := rduGo esc 0 s

mutual
/-- `fixUrlsInObject` (lines 580–599): fix domain URLs in every string value,
recursing through arrays and objects. -/
def fixUrlsInObject : JVal → JVal
  | .jstr s => .jstr (replaceDomainUrls false s)
  | .jarr xs => .jarr (fixUrlsArr xs)
  | .jobj fs => .jobj (fixUrlsObj fs)
  | v => v
termination_by structural v => v
/-- `fixUrlsInObject` over an array. -/
def fixUrlsArr : JArr → JArr
  | .anil => .anil
  | .acons v t => .acons (fixUrlsInObject v) (fixUrlsArr t)
termination_by structural xs => xs
/-- `fixUrlsInObject` over an object's values. -/
def fixUrlsObj : JObj → JObj
  | .onil => .onil
  | .ocons k v t => .ocons k (fixUrlsInObject v) (fixUrlsObj t)
termination_by structural fs => fs
end

/-- Object field lookup (JS property read on a parsed object). -/
def lookupJ : JObj → List Char → Option JVal
  | .onil, _ => none
  | .ocons k v t, key => if k = key then some v else lookupJ t key

/-- JS property assignment: update the first field with the name, or append. -/
def jSet : JObj → List Char → JVal → JObj
  | .onil, key, v => .ocons key v .onil
  | .ocons k w t, key, v =>
    if k = key then .ocons k v t else .ocons k w (jSet t key v)

/-- The About-Us banner URL injected by the slideshow special case. -/
def bannerUrl : List Char :=
  "https://alluredigital.net/wp-content/uploads/2022/12/about-banner.png".data

/-- `[{ id: 393, url: bannerUrl }]`. -/
def galleryVal : JVal :=
  .jarr (.acons (.jobj (.ocons "id".data (.jnum "393".data)
    (.ocons "url".data (.jstr bannerUrl) .onil))) .anil)

/-- `{ url: bannerUrl }`. -/
def imageVal : JVal := .jobj (.ocons "url".data (.jstr bannerUrl) .onil)

/-- `parsed.background_background === 'slideshow'`. -/
def isSlideshowVal : Option JVal → Bool
  | some (.jstr s) => s = "slideshow".data
  | _ => false

/-- Truthy and `Array.isArray`. -/
def isArrVal : Option JVal → Bool
  | some (.jarr _) => true
  | _ => false

/-- The slideshow special case (lines 602–613).  Reading
`parsed.background_background` throws a TypeError when `parsed` is `null`
(the one runtime throw of the pipeline, reaching the outer catch); property
reads on other non-objects yield `undefined` and the condition is false. -/
def slideshowStep (parsed : JVal) : Except Unit JVal :=
  match parsed with
  | .jnull => .error ()
  | .jobj fs =>
    if isSlideshowVal (lookupJ fs "background_background".data) &&
        isArrVal (lookupJ fs "background_slideshow_gallery".data) then
      .ok (.jobj (jSet (jSet (jSet fs "background_slideshow_gallery".data galleryVal)
        "background_background".data (.jstr "classic".data))
        "background_image".data imageVal))
    else .ok parsed
  | _ => .ok parsed

/-- The per-attribute-value pipeline of the data-settings callback
(lines 552–633): entity-decode; on JSON-parse failure fix URLs in the raw
(still-encoded) value with JSON escaping (inner catch, lines 568–578);
otherwise slideshow special case, recursive URL fix, stringify, re-encode.
An `error` is a throw that reaches the outer catch. -/
def dataSettingsPipeline (jsonStr : List Char) : Except Unit (List Char) :=
  match jsonParse (decodeEntities jsonStr) with
  | none => .ok (replaceDomainUrls true jsonStr)
  | some parsed =>
    match slideshowStep parsed with
    | .error e => .error e
    | .ok p2 => .ok (encodeEntities (jstringify (fixUrlsInObject p2)))

/-- Reassemble the `data-settings="..."` attribute text. -/
def dataSettingsAttr (v : List Char) : List Char :=
  "data-settings=\"".data ++ v ++ ['"']

/-- The callback's result on one captured attribute value: the fixed
attribute, or the original match when the pipeline throws (outer catch,
lines 628–632). -/
def dataSettingsRewrite (jsonStr : List Char) : List Char :=
  match dataSettingsPipeline jsonStr with
  | .ok fixed => dataSettingsAttr fixed
  | .error _ => dataSettingsAttr jsonStr

/-- Does the pipeline throw up to the outer catch on this value? -/
def pipelineThrows (s : List Char) : Bool :=
  match dataSettingsPipeline s with
  | .error _ => true
  | .ok _ => false

/-! ## The rewrite-on-mount effect trace (PageRenderer useEffect, lines 55–970)

The useEffect body is straight-line code; we model the sequence of effects it
performs on the live document (and the two pure computation phases) as an
event list computed from an abstract parsed document. -/

/-- A stylesheet-bearing element found in the parsed head: a
`link[rel="stylesheet"]` with its href, or an inline `style` element with its
text content. -/
inductive HeadStyleEl where
  | linkSheet (href : List Char)
  | inlineStyle (textc : List Char)
deriving DecidableEq

/-- A script element of the parsed document: external (with src) or inline
(with text content). -/
inductive ScriptEl where
  | ext (src : List Char)
  | inl (textc : List Char)
deriving DecidableEq

/-- An abstract parsed document, carrying exactly what the useEffect body
reads: head stylesheets, head meta/title elements (each with a flag saying
whether an equivalent element already exists in the live document), and
scripts.  `DOMParser.parseFromString` always produces a body, so the body is
implicit. -/
structure DocModel where
  headStyles : List HeadStyleEl
  metas : List Bool
  scripts : List ScriptEl

/-- A document-level effect (or marker for a pure computation phase) of the
rewrite-on-mount routine, in execution order. -/
inductive Ev where
  | addSheet (href : List Char)
  | addStyleInline
  | addMeta
  | bodyCascade
  | setInner
  | fixups
  | addScriptExt (src : List Char)
  | addScriptInline
deriving DecidableEq

/-- Head stylesheet injection (lines 67–105): skip Google-font hosts, remap
remote hrefs through `getAssetFilename` (skipping when it returns null),
dedup by href (inline styles dedup by their first 50 characters; an empty
inline style gets a random id and is never deduped). -/
def stylePhase : List HeadStyleEl → List (List Char) → List Ev
  | [], _ => []
  | .linkSheet href :: rest, loaded =>
    if href ∈ loaded then stylePhase rest loaded
    else if hasSub "fonts.googleapis.com".data href || hasSub "googleapis.com".data href ||
        hasSub "gstatic.com".data href then
      stylePhase rest loaded
    else if hasSub "alluredigital.net".data href || isPref "http".data href then
      match getAssetFilename (String.mk href) with
      | some f => Ev.addSheet ("/assets/".data ++ f.data) :: stylePhase rest (href :: loaded)
      | none => stylePhase rest loaded
    else Ev.addSheet href :: stylePhase rest (href :: loaded)
  | .inlineStyle textc :: rest, loaded =>
    if textc = [] then Ev.addStyleInline :: stylePhase rest loaded
    else if textc.take 50 ∈ loaded then stylePhase rest loaded
    else Ev.addStyleInline :: stylePhase rest (textc.take 50 :: loaded)

/-- Meta/title injection (lines 108–139): append unless an equivalent element
already exists. -/
def metaPhase (metas : List Bool) : List Ev :=
  metas.filterMap (fun present => if present then none else some Ev.addMeta)

/-- Script injection (lines 850–938): skip external-API hosts, dedup by
src (inline: by the first 50 characters), remap remote srcs through
`getAssetFilename` (skipping on null), skip analytics-flavoured inline
scripts. -/
def scriptPhase : List ScriptEl → List (List Char) → List Ev
  | [], _ => []
  | .ext src :: rest, loaded =>
    if hasSub "maps.googleapis.com".data src || hasSub "googleapis.com".data src ||
        hasSub "gstatic.com".data src || hasSub "googletagmanager.com".data src ||
        hasSub "google-analytics.com".data src || hasSub "facebook.net".data src ||
        hasSub "clarity.ms".data src || hasSub "cleantalk.org".data src ||
        hasSub "pearldiver.io".data src || hasSub "usbrowserspeed.com".data src ||
        hasSub "recaptcha".data src then
      scriptPhase rest loaded
    else if src ∈ loaded then scriptPhase rest loaded
    else if hasSub "alluredigital.net".data src || isPref "http".data src then
      match getAssetFilename (String.mk src) with
      | some f => Ev.addScriptExt ("/assets/".data ++ f.data) :: scriptPhase rest (src :: loaded)
      | none => scriptPhase rest loaded
    else Ev.addScriptExt src :: scriptPhase rest (src :: loaded)
  | .inl textc :: rest, loaded =>
    if hasSub "gtag".data textc || hasSub "fbq".data textc || hasSub "clarity".data textc ||
        hasSub "dataLayer".data textc || hasSub "google".data textc ||
        hasSub "maps".data textc || hasSub "recaptcha".data textc then
      scriptPhase rest loaded
    else if textc.take 50 ∈ loaded then scriptPhase rest loaded
    else Ev.addScriptInline :: scriptPhase rest (textc.take 50 :: loaded)

/-- The full effect trace of one useEffect invocation: nothing when the
container is not mounted or the html is empty (line 56); otherwise head
styles, head metas, the body replacement cascade (pure computation), the
single innerHTML assignment, the post-insertion fixups, and script
injection — in that order. -/
def effectTrace (mounted : Bool) (html : String) (doc : DocModel) : List Ev :=
  if !mounted || html.data.isEmpty then []
  else
    stylePhase doc.headStyles [] ++ metaPhase doc.metas ++ [Ev.bodyCascade] ++
      Ev.setInner :: Ev.fixups :: scriptPhase doc.scripts []

/-- Is the event a script append? -/
def isScriptEv : Ev → Bool
  | .addScriptExt _ => true
  | .addScriptInline => true
  | _ => false

/-- Is the event a stylesheet/style append? -/
def isSheetEv : Ev → Bool
  | .addSheet _ => true
  | .addStyleInline => true
  | _ => false

/-! ## Readiness signaling (PageRenderer lines 902–968 and 972–1021, C7) -/

/-- Per-invocation loading state: which injected external scripts have
settled (fired load or error), and the `isLoading` React state. -/
structure LoadSt where
  resolved : List Bool
  loading : Bool
deriving DecidableEq

/-- Events of the readiness machine: script `i` fires its load event, script
`i` fires its error event, the `Promise.all(...).then(... setTimeout 300)`
timeout fires, or the no-external-scripts `setTimeout 100` fires. -/
inductive REv where
  | load (i : Nat)
  | err (i : Nat)
  | t300
  | t100
deriving DecidableEq

/-- One step of the readiness machine for `n` injected external scripts.
`load i` and `err i` both settle promise `i` (the source installs `onload`
and `onerror` handlers that both resolve).  `t300` models the
`Promise.all(scriptPromises).then` continuation plus its 300ms timeout, so it
is enabled only when every promise has settled and `n > 0`; `t100` models the
100ms timeout of the `scriptPromises.length === 0` branch.  Both set
`isLoading` to false.  Time is abstracted to event order. -/
def stepR (n : Nat) (st : LoadSt) : REv → Option LoadSt
  | .load i => if i < n then some ⟨st.resolved.set i true, st.loading⟩ else none
  | .err i => if i < n then some ⟨st.resolved.set i true, st.loading⟩ else none
  | .t300 =>
    if 0 < n ∧ st.resolved.all (fun b => b) = true then some ⟨st.resolved, false⟩ else none
  | .t100 => if n = 0 then some ⟨st.resolved, false⟩ else none

/-- Run a sequence of readiness events; `none` when an event fires that is
not enabled. -/
def runR (n : Nat) : LoadSt → List REv → Option LoadSt
  | st, [] => some st
  | st, e :: es =>
    match stepR n st e with
    | some st2 => runR n st2 es
    | none => none

/-- The state at mount: no promise settled, `isLoading` true (`useState(true)`
and the `setIsLoading(true)` at the top of the effect). -/
def initSt (n : Nat) : LoadSt := ⟨List.replicate n false, true⟩

/-- The number of injected external scripts (= `scriptPromises.length`):
the external-script appends in the script phase. -/
def numExt (doc : DocModel) : Nat :=
  ((scriptPhase doc.scripts []).filter isScriptEv).length

/-- The render output of PageRenderer (lines 972–1021) as a function of
`isLoading`: the fixed overlay is rendered exactly when `isLoading`, and the
content container's opacity is `0` when loading, `1` otherwise. -/
structure ViewModel where
  overlayVisible : Bool
  containerOpacity : Nat

/-- `{isLoading && <overlay/>}` and `opacity: isLoading ? 0 : 1`. -/
def renderView (isLoading : Bool) : ViewModel :=
  ⟨isLoading, if isLoading then 0 else 1⟩

/-! ## Helper lemmas -/

theorem isPref_self_append (p t : List Char) : isPref p (p ++ t) = true := by
  induction p with
  | nil => rfl
  | cons a as ih => simp [isPref, ih]

theorem lowChar_eq_of_small (c d : Char) (hd : d.toNat < 65) (h : lowChar c = d) : c = d := by
  unfold lowChar at h
  split at h
  · rename_i hc
    exfalso
    have h1 : 65 ≤ c.toNat := by
      have := hc.1; rw [Char.le_def] at this; exact this
    have h2 : c.toNat ≤ 90 := by
      have := hc.2; rw [Char.le_def] at this; exact this
    have hv : (c.toNat + 32).isValidChar := by
      constructor; omega
    have ht : (Char.ofNat (c.toNat + 32)).toNat = c.toNat + 32 := by
      unfold Char.ofNat
      split
      · rfl
      · rename_i hnv; exact absurd hv hnv
    have := congrArg Char.toNat h
    rw [ht] at this
    omega
  · exact h

theorem mem_repFirst_del (p : List Char) (a : Char) :
    ∀ l, a ∈ repFirst p [] l → a ∈ l := by
  intro l
  induction l with
  | nil => intro h; exact absurd h (by simp [repFirst])
  | cons c t ih =>
    intro h
    unfold repFirst at h
    split at h
    · simp only [List.nil_append] at h
      exact List.mem_cons_of_mem c (List.drop_subset _ t h)
    · rcases List.mem_cons.mp h with h | h
      · exact h ▸ List.mem_cons_self c t
      · exact List.mem_cons_of_mem c (ih h)

theorem takeUntilCh_of_not_mem (sep : Char) (l : List Char) (h : sep ∉ l) :
    takeUntilCh sep l = l := by
  induction l with
  | nil => rfl
  | cons c t ih =>
    unfold takeUntilCh
    have hc : ¬(c == sep) = true := by
      simp only [beq_iff_eq]
      intro he; exact h (he ▸ List.mem_cons_self c t)
    rw [if_neg hc, ih (fun hm => h (List.mem_cons_of_mem c hm))]

theorem not_mem_underscorePath (l : List Char) (h : '?' ∉ l) :
    '?' ∉ underscorePath l := by
  intro hm
  obtain ⟨b, hb, hfb⟩ := List.mem_map.mp hm
  by_cases hbs : (b == '/') = true
  · rw [if_pos hbs] at hfb; exact absurd hfb (by decide)
  · rw [if_neg hbs] at hfb; exact h (hfb ▸ hb)

theorem parseHostPath_no_qm (s : List Char) (u : URLParts)
    (h : parseHostPath s = some u) : '?' ∉ u.hostname ∧ '?' ∉ u.pathname := by
  unfold parseHostPath at h
  split at h
  · exact absurd h (by simp)
  · injection h with h
    subst h
    constructor
    · intro hm
      obtain ⟨b, hb, hfb⟩ := List.mem_map.mp hm
      have hb' := List.mem_takeWhile_imp hb
      have : b = '?' := lowChar_eq_of_small b '?' (by decide) hfb
      subst this
      simp [hostCh] at hb'
    · intro hm
      revert hm
      split
      · intro hm
        rcases List.mem_cons.mp hm with h | h
        · exact absurd h (by decide)
        · have := List.mem_takeWhile_imp h
          simp at this
      · intro hm
        rcases List.mem_cons.mp hm with h | h
        · exact absurd h (by decide)
        · simp at h

theorem parse_no_qm (s : String) (u : URLParts)
    (h : parseURLWithBase s = some u) : '?' ∉ u.hostname ∧ '?' ∉ u.pathname := by
  unfold parseURLWithBase at h
  have hqf : ∀ l : List Char, '?' ∉ takeUntilQF l := by
    intro l hm
    have := List.mem_takeWhile_imp hm
    simp at this
  have hbase : '?' ∉ "alluredigital.net".data := by decide
  split at h
  · rename_i sch rest hfs
    split at h
    · split at h
      · exact parseHostPath_no_qm _ u h
      · exact absurd h (by simp)
    · injection h with h
      subst h
      exact ⟨by simp, hqf rest⟩
  · split at h
    · exact parseHostPath_no_qm _ u h
    · split at h
      · injection h with h
        subst h
        exact ⟨hbase, hqf _⟩
      · injection h with h
        subst h
        refine ⟨hbase, ?_⟩
        intro hm
        rcases List.mem_cons.mp hm with h | h
        · exact absurd h (by decide)
        · exact hqf _ h

theorem pathname_ne_nil (p : List Char) (h : (pathSegments p).isEmpty = false) :
    p ≠ [] := by
  intro he
  subst he
  simp [pathSegments, splitOnCh] at h

/-! ## C1 / C8 / C9 theorems -/

/-- C1 (counterexample): for the absolute URL `https://xwww.foo.com/a`, whose
hostname `xwww.foo.com` has no leading `www.`, the claimed rule keeps the
hostname intact (`xwww.foo.com_a`) while `getAssetFilename` removes the first
occurrence of `www.` anywhere, producing `xfoo.com_a`; so the claim as stated
is false at this input. -/
theorem C1_counterexample :
    parseURLWithBase "https://xwww.foo.com/a" = some ⟨"xwww.foo.com".data, "/a".data⟩ ∧
    getAssetFilename "https://xwww.foo.com/a" = some "xfoo.com_a" ∧
    claimAssetRule ⟨"xwww.foo.com".data, "/a".data⟩ = some "xwww.foo.com_a".data ∧
    some "xfoo.com_a".data ≠ some "xwww.foo.com_a".data := by
  refine ⟨by decide, by decide, by decide, by decide⟩

/-- C1 (amended): for every URL that parses (against the base
`https://alluredigital.net`), `getAssetFilename` returns the hostname with
the FIRST occurrence of `www.` removed, concatenated with the pathname,
slashes replaced by underscores and a `?` suffix stripped, and returns null
when the pathname has no non-empty segments (or the URL does not parse, or
the filename comes out empty); moreover, when the segments are non-empty the
query-strip and emptiness cases never fire, so the result is exactly the
underscored concatenation. -/
theorem C1_assetRemap_amended (s : String) (u : URLParts)
    (h : parseURLWithBase s = some u) :
    getAssetFilename s = (amendedAssetRule u).map (fun l => String.mk l) ∧
    ((pathSegments u.pathname).isEmpty = false →
      amendedAssetRule u =
        some (underscorePath (repFirst "www.".data [] u.hostname ++ u.pathname))) := by
  constructor
  · unfold getAssetFilename
    rw [h]
    show (getAssetFilenameCore u).map _ = _
    unfold getAssetFilenameCore amendedAssetRule litespeedBranch uploadsBranch generalBranch
    split
    · rfl
    · split
      · rfl
      · split
        · rfl
        · rfl
  · intro hne
    obtain ⟨hqh, hqp⟩ := parse_no_qm s u h
    have hqd : '?' ∉ repFirst "www.".data [] u.hostname ++ u.pathname := by
      intro hm
      rcases List.mem_append.mp hm with hm | hm
      · exact hqh (mem_repFirst_del _ _ _ hm)
      · exact hqp hm
    have hnn : underscorePath (repFirst "www.".data [] u.hostname ++ u.pathname) ≠ [] := by
      have hp : u.pathname ≠ [] := pathname_ne_nil _ hne
      simp only [underscorePath, ne_eq, List.map_eq_nil_iff, List.append_eq_nil]
      intro ⟨_, hpe⟩
      exact hp hpe
    unfold amendedAssetRule
    rw [if_neg (by simp [hne])]
    rw [takeUntilCh_of_not_mem _ _ (not_mem_underscorePath _ hqd)]
    simp only [List.isEmpty_eq_true]
    rw [if_neg hnn]

/-- C1 witness: the amended rule evaluated at a concrete parsed URL. -/
theorem C1_assetRemap_amended_witness :
    getAssetFilename "https://www.a.com/b.png" =
      (amendedAssetRule ⟨"www.a.com".data, "/b.png".data⟩).map (fun l => String.mk l) ∧
    ((pathSegments ("/b.png".data)).isEmpty = false →
      amendedAssetRule ⟨"www.a.com".data, "/b.png".data⟩ =
        some (underscorePath (repFirst "www.".data [] "www.a.com".data ++ "/b.png".data))) :=
  C1_assetRemap_amended "https://www.a.com/b.png" ⟨"www.a.com".data, "/b.png".data⟩ (by decide)

/-- C8 (counterexample): the claim describes the general rule as removing a
LEADING `www.`; at `https://awww.bar.org/x` the code removes the first
occurrence of `www.` anywhere in the hostname, so `getAssetFilename` is not
extensionally equal to the rule as worded. -/
theorem C8_counterexample :
    parseURLWithBase "https://awww.bar.org/x" = some ⟨"awww.bar.org".data, "/x".data⟩ ∧
    getAssetFilename "https://awww.bar.org/x" = some "abar.org_x" ∧
    claimAssetRule ⟨"awww.bar.org".data, "/x".data⟩ = some "awww.bar.org_x".data ∧
    "abar.org_x".data ≠ "awww.bar.org_x".data := by
  refine ⟨by decide, by decide, by decide, by decide⟩

/-- C8 (amended): the three branches of `getAssetFilename` (litespeed,
wp-content/uploads, general) are extensionally equal, so the whole function
equals the single general rule — with the hostname's FIRST occurrence of
`www.` removed (not only a leading one). -/
theorem C8_branches_amended :
    (∀ u : URLParts, litespeedBranch u = generalBranch u ∧ uploadsBranch u = generalBranch u) ∧
    (∀ u : URLParts, getAssetFilenameCore u = amendedAssetRule u) ∧
    (∀ s : String, getAssetFilename s =
      (parseURLWithBase s).bind (fun u => (amendedAssetRule u).map (fun l => String.mk l))) := by
  have hco : ∀ u : URLParts, getAssetFilenameCore u = amendedAssetRule u := by
    intro u
    unfold getAssetFilenameCore amendedAssetRule litespeedBranch uploadsBranch generalBranch
    split
    · rfl
    · split
      · rfl
      · split
        · rfl
        · rfl
  refine ⟨fun u => ⟨rfl, rfl⟩, hco, fun s => ?_⟩
  unfold getAssetFilename
  cases hp : parseURLWithBase s with
  | none => rfl
  | some u =>
    show (getAssetFilenameCore u).map _ = (amendedAssetRule u).map _
    rw [hco u]

theorem fixAssetUrl_of_guard (u : String)
    (h : (u.data.isEmpty || isPref "data:".data u.data || isPref "/assets/".data u.data) = true) :
    fixAssetUrl u = u := by
  unfold fixAssetUrl
  rw [if_pos h]

theorem fixAssetUrl_shape (u : String) :
    fixAssetUrl u = u ∨ ∃ f, fixAssetUrl u = String.mk ("/assets/".data ++ f) := by
  unfold fixAssetUrl fixAssetUrlRim
  split
  · exact Or.inl rfl
  · split
    · split
      · exact Or.inr ⟨_, rfl⟩
      · split
        · split
          · exact Or.inr ⟨_, rfl⟩
          · exact Or.inl rfl
        · exact Or.inl rfl
    · split
      · split
        · exact Or.inr ⟨_, rfl⟩
        · exact Or.inl rfl
      · exact Or.inl rfl

theorem assets_isPref (f : List Char) :
    isPref "/assets/".data (String.mk ("/assets/".data ++ f)).data = true :=
  isPref_self_append _ f

/-- C9: `fixAssetUrl` is idempotent; every produced value either equals the
input or starts with `/assets/`; and any input starting with `/assets/` or
`data:` is returned unchanged. -/
theorem C9_fixAssetUrl_idempotent (u : String) :
    fixAssetUrl (fixAssetUrl u) = fixAssetUrl u ∧
    (fixAssetUrl u = u ∨ isPref "/assets/".data (fixAssetUrl u).data = true) ∧
    ((isPref "/assets/".data u.data = true ∨ isPref "data:".data u.data = true) →
      fixAssetUrl u = u) := by
  have h3 : (isPref "/assets/".data u.data = true ∨ isPref "data:".data u.data = true) →
      fixAssetUrl u = u := by
    intro hp
    apply fixAssetUrl_of_guard
    rcases hp with hp | hp <;> simp [hp]
  rcases fixAssetUrl_shape u with h | ⟨f, hf⟩
  · refine ⟨?_, Or.inl h, h3⟩
    rw [h]
    exact h
  · refine ⟨?_, Or.inr (hf ▸ assets_isPref f), h3⟩
    rw [hf]
    apply fixAssetUrl_of_guard
    have h1 : isPref "/assets/".data (String.mk ("/assets/".data ++ f)).data = true :=
      isPref_self_append _ f
    rw [h1]
    simp

theorem lookup_self (l : List (List Char × List Char)) (p v : List Char)
    (hself : ∀ e ∈ l, e.1 = e.2) (h : lookupAssoc l p = some v) : v = p := by
  induction l with
  | nil => exact absurd h (by simp [lookupAssoc])
  | cons e t ih =>
    obtain ⟨k, w⟩ := e
    unfold lookupAssoc at h
    split at h
    · injection h with h
      rename_i hk
      rw [← h, hk]
      exact (hself ⟨k, w⟩ (List.mem_cons_self _ _)).symm
    · exact ih (fun e he => hself e (List.mem_cons_of_mem _ he)) h

theorem lookup_key_mem (l : List (List Char × List Char)) (p v : List Char)
    (h : lookupAssoc l p = some v) : ∃ e ∈ l, e.1 = p := by
  induction l with
  | nil => exact absurd h (by simp [lookupAssoc])
  | cons e t ih =>
    obtain ⟨k, w⟩ := e
    unfold lookupAssoc at h
    split at h
    · rename_i hk
      exact ⟨⟨k, w⟩, List.mem_cons_self _ _, hk.symm⟩
    · obtain ⟨e, he, hek⟩ := ih h
      exact ⟨e, List.mem_cons_of_mem _ he, hek⟩

theorem claim_eq_dropTrail (q : List Char) (h1 : q ≠ []) (h2 : q ≠ "/".data) :
    claimLinkRule q = dropTrailSlash q := by
  unfold claimLinkRule dropTrailSlash
  rw [if_neg (by simp [h1, h2])]
  by_cases he : endsWithCh '/' q = true
  · rw [if_pos he, if_pos ⟨he, h2⟩]
  · rw [if_neg he, if_neg (fun hc => he hc.1)]

theorem dropTrail_ne_nil (q : List Char) (h1 : q ≠ []) (h2 : q ≠ "/".data) :
    dropTrailSlash q ≠ [] := by
  unfold dropTrailSlash
  split
  · rename_i hc
    intro hd
    have hlen : q.length = 1 := by
      have := List.length_dropLast q
      rw [hd] at this
      simp only [List.length_nil] at this
      have hq1 : 1 ≤ q.length := List.length_pos.mpr h1
      omega
    obtain ⟨c, hc'⟩ := List.length_eq_one.mp hlen
    subst hc'
    have : c = '/' := by
      have he := hc.1
      unfold endsWithCh at he
      simp only [List.reverse_singleton] at he
      exact beq_iff_eq.mp he
    subst this
    exact h2 rfl
  · exact h1

theorem anchorBranch_eq_claim (q : List Char) :
    (match lookupAssoc routeMapList (dropTrailSlash q) with
     | some v => v
     | none =>
       if isPref "/blog/".data (dropTrailSlash q) then dropTrailSlash q
       else if dropTrailSlash q = "/".data ∨ dropTrailSlash q = [] then "/".data
       else dropTrailSlash q) = claimLinkRule q := by
  by_cases h1 : q = []
  · subst h1; decide
  · by_cases h2 : q = "/".data
    · subst h2; decide
    · rw [claim_eq_dropTrail q h1 h2]
      cases hl : lookupAssoc routeMapList (dropTrailSlash q) with
      | some v =>
        exact lookup_self _ _ _ (by decide) hl
      | none =>
        show (if isPref "/blog/".data (dropTrailSlash q) = true then dropTrailSlash q
              else if dropTrailSlash q = "/".data ∨ dropTrailSlash q = [] then "/".data
              else dropTrailSlash q) = dropTrailSlash q
        split
        · rfl
        · split
          · rename_i hsl
            rcases hsl with hs | hs
            · exact hs.symm
            · exact absurd hs (dropTrail_ne_nil q h1 h2)
          · rfl

theorem hasSub_append_left (sub l x : List Char) (h : hasSub sub l = true) :
    hasSub sub (x ++ l) = true := by
  induction x with
  | nil => exact h
  | cons c t ih =>
    show (isPref sub (c :: (t ++ l)) || hasSub sub (t ++ l)) = true
    rw [ih]
    simp

theorem trim_keeps_ptr (x : List Char) :
    hasSub "pointer-events: none".data (trimStr (x ++ ptrEventsSuffix)) = true := by
  induction x with
  | nil => decide
  | cons c t ih =>
    by_cases hc : isWS c = true
    · have hstep : trimStr ((c :: t) ++ ptrEventsSuffix) = trimStr (t ++ ptrEventsSuffix) := by
        unfold trimStr
        rw [List.cons_append, List.dropWhile_cons, if_pos hc]
      rw [hstep]
      exact ih
    · have h1 : ((c :: t) ++ ptrEventsSuffix).dropWhile isWS = (c :: t) ++ ptrEventsSuffix := by
        rw [List.cons_append, List.dropWhile_cons, if_neg hc]
      have h2 : (((c :: t) ++ ptrEventsSuffix).reverse).dropWhile isWS =
          ((c :: t) ++ ptrEventsSuffix).reverse := by
        rw [List.reverse_append, List.dropWhile_append]
        have hne : (ptrEventsSuffix.reverse.dropWhile isWS).isEmpty = false := by decide
        rw [hne]
        simp only [Bool.false_eq_true, if_false]
        rw [show ptrEventsSuffix.reverse.dropWhile isWS = ptrEventsSuffix.reverse from by decide]
      have hstep : trimStr ((c :: t) ++ ptrEventsSuffix) = (c :: t) ++ ptrEventsSuffix := by
        unfold trimStr
        rw [h1, h2, List.reverse_reverse]
      rw [hstep]
      exact hasSub_append_left _ _ _ (by decide)

/-- C3 (counterexample): the href `mailto:x@alluredigital.net` contains
`alluredigital.net` and parses as an absolute URL with pathname
`x@alluredigital.net`, so by the claim the rewritten href should be that
pathname; but the tel:/mailto: branch runs first and removes the href
attribute entirely. -/
theorem C3_counterexample :
    hasSub "alluredigital.net".data "mailto:x@alluredigital.net".data = true ∧
    parseAbsURL "mailto:x@alluredigital.net" = some ⟨[], "x@alluredigital.net".data⟩ ∧
    claimLinkRule "x@alluredigital.net".data = "x@alluredigital.net".data ∧
    (fixAnchor "mailto:x@alluredigital.net" "").1 = none ∧
    (none : Option String) ≠ some "x@alluredigital.net" := by
  refine ⟨by decide, by decide, by decide, by decide, by decide⟩

/-- C3 (amended): for every anchor whose href does NOT start with `tel:` or
`mailto:`, contains `alluredigital.net`, and parses as an absolute URL, the
rewritten href is the URL's pathname with a trailing slash removed (`/` for
an empty or root pathname), query and fragment dropped; when parsing fails
and the regex extracts a non-empty path after `alluredigital.net`, the same
normalization applies; and the routeMap lookup never changes the result
because every entry maps a path to itself. -/
theorem C3_internalLinks_amended (href style : String)
    (hTel : isPref "tel:".data href.data = false)
    (hMail : isPref "mailto:".data href.data = false)
    (hDom : hasSub "alluredigital.net".data href.data = true) :
    (∀ u : URLParts, parseAbsURL href = some u →
      (fixAnchor href style).1 = some (String.mk (claimLinkRule u.pathname))) ∧
    (parseAbsURL href = none → ∀ p, afterDomain href.data = some p → p ≠ [] →
      (fixAnchor href style).1 = some (String.mk (claimLinkRule p))) ∧
    (∀ e ∈ routeMapList, e.1 = e.2) := by
  have hg : (isPref "tel:".data href.data || isPref "mailto:".data href.data) = false := by
    rw [hTel, hMail]
    rfl
  refine ⟨?_, ?_, by decide⟩
  · intro u hu
    unfold fixAnchor
    rw [hg]
    rw [if_neg (by simp)]
    rw [hDom]
    rw [if_pos rfl, hu]
    show some (String.mk _) = _
    rw [anchorBranch_eq_claim u.pathname]
  · intro hu p hp hpne
    unfold fixAnchor
    rw [hg]
    rw [if_neg (by simp)]
    rw [hDom]
    rw [if_pos rfl, hu]
    show (fixAnchorCatch href style).1 = _
    simp only [fixAnchorCatch, hp]
    rw [if_pos hpne]
    show some (String.mk _) = _
    by_cases hp2 : p = "/".data
    · subst hp2; decide
    · rw [if_neg (dropTrail_ne_nil p hpne hp2), claim_eq_dropTrail p hpne hp2]

/-- C3 witness: the amended behavior at a concrete blog-post href with a
trailing slash. -/
theorem C3_internalLinks_amended_witness :
    (∀ u : URLParts, parseAbsURL "https://alluredigital.net/blog/post/" = some u →
      (fixAnchor "https://alluredigital.net/blog/post/" "").1 =
        some (String.mk (claimLinkRule u.pathname))) ∧
    (parseAbsURL "https://alluredigital.net/blog/post/" = none →
      ∀ p, afterDomain "https://alluredigital.net/blog/post/".data = some p → p ≠ [] →
      (fixAnchor "https://alluredigital.net/blog/post/" "").1 =
        some (String.mk (claimLinkRule p))) ∧
    (∀ e ∈ routeMapList, e.1 = e.2) :=
  C3_internalLinks_amended "https://alluredigital.net/blog/post/" ""
    (by decide) (by decide) (by decide)

/-- C9 witness: idempotence and the unchanged-input clause at concrete inputs. -/
theorem C9_fixAssetUrl_idempotent_witness :
    fixAssetUrl (fixAssetUrl "https://alluredigital.net/a.png") =
      fixAssetUrl "https://alluredigital.net/a.png" ∧
    fixAssetUrl "/assets/x.css" = "/assets/x.css" :=
  ⟨(C9_fixAssetUrl_idempotent "https://alluredigital.net/a.png").1,
   (C9_fixAssetUrl_idempotent "/assets/x.css").2.2 (Or.inl (by decide))⟩

/-- C6 (counterexample): the GoogleAdsManagement route handler is not a
pass-through: it rewrites the content "PPC" to "Google Ads" between the file
read and the PageRenderer call. -/
theorem C6_counterexample :
    ("GoogleAdsManagement", googleAdsRewrite) ∈ routeHandlers ∧
    googleAdsRewrite "PPC" = "Google Ads" ∧
    ("Google Ads" : String) ≠ "PPC" := by
  refine ⟨by simp [routeHandlers], by decide, by decide⟩

set_option maxHeartbeats 1000000 in
/-- C6 (amended): every route handler except GoogleAdsManagement and the
rewrite variant of ShopifyDevelopment hands the file content unmodified to
PageRenderer; those two apply a fixed string-replacement chain, and do modify
some contents. -/
theorem C6_routes_amended :
    (∀ h ∈ routeHandlers,
      h.1 ≠ "GoogleAdsManagement" → h.1 ≠ "ShopifyDevelopmentRewrite" → ∀ c, h.2 c = c) ∧
    googleAdsRewrite "PPC" ≠ "PPC" ∧
    shopifyRewrite "Bricks Builder" ≠ "Bricks Builder" := by
  have hg : googleAdsRewrite "PPC" ≠ "PPC" := by decide
  have hs : shopifyRewrite "Bricks Builder" ≠ "Bricks Builder" := by decide
  refine ⟨?_, hg, hs⟩
  intro h hm h1 h2 c
  simp only [routeHandlers, List.mem_cons, List.not_mem_nil, or_false] at hm
  rcases hm with rfl|rfl|rfl|rfl|rfl|rfl|rfl|rfl|rfl|rfl|rfl|rfl|rfl|rfl|rfl
  all_goals first | (exact absurd rfl h1) | (exact absurd rfl h2) | rfl

/-- C6 witness: the pass-through property applied to the Home handler at a
concrete content, plus the non-pass-through fact for GoogleAdsManagement. -/
theorem C6_routes_amended_witness :
    (fun c : String => c) "html content" = "html content" ∧
    googleAdsRewrite "PPC" ≠ "PPC" :=
  ⟨C6_routes_amended.1 ("Home", fun c => c) (by simp [routeHandlers])
    (by decide) (by decide) "html content",
   C6_routes_amended.2.1⟩

theorem stylePhase_events : ∀ (ls : List HeadStyleEl) (loaded : List (List Char)) (e : Ev),
    e ∈ stylePhase ls loaded → isSheetEv e = true := by
  intro ls
  induction ls with
  | nil => intro loaded e he; simp [stylePhase] at he
  | cons hd rest ih =>
    intro loaded e he
    cases hd with
    | linkSheet href =>
      unfold stylePhase at he
      split at he
      · exact ih _ _ he
      · split at he
        · exact ih _ _ he
        · split at he
          · split at he
            · rcases List.mem_cons.mp he with rfl | he
              · rfl
              · exact ih _ _ he
            · exact ih _ _ he
          · rcases List.mem_cons.mp he with rfl | he
            · rfl
            · exact ih _ _ he
    | inlineStyle textc =>
      unfold stylePhase at he
      split at he
      · rcases List.mem_cons.mp he with rfl | he
        · rfl
        · exact ih _ _ he
      · split at he
        · exact ih _ _ he
        · rcases List.mem_cons.mp he with rfl | he
          · rfl
          · exact ih _ _ he

theorem metaPhase_events (ms : List Bool) (e : Ev) (he : e ∈ metaPhase ms) :
    e = Ev.addMeta := by
  unfold metaPhase at he
  obtain ⟨b, _, hb⟩ := List.mem_filterMap.mp he
  split at hb
  · exact absurd hb (by simp)
  · injection hb with hb
    exact hb.symm

theorem scriptPhase_events : ∀ (ss : List ScriptEl) (loaded : List (List Char)) (e : Ev),
    e ∈ scriptPhase ss loaded → isScriptEv e = true := by
  intro ss
  induction ss with
  | nil => intro loaded e he; simp [scriptPhase] at he
  | cons hd rest ih =>
    intro loaded e he
    cases hd with
    | ext src =>
      unfold scriptPhase at he
      split at he
      · exact ih _ _ he
      · split at he
        · exact ih _ _ he
        · split at he
          · split at he
            · rcases List.mem_cons.mp he with rfl | he
              · rfl
              · exact ih _ _ he
            · exact ih _ _ he
          · rcases List.mem_cons.mp he with rfl | he
            · rfl
            · exact ih _ _ he
    | inl textc =>
      unfold scriptPhase at he
      split at he
      · exact ih _ _ he
      · split at he
        · exact ih _ _ he
        · rcases List.mem_cons.mp he with rfl | he
          · rfl
          · exact ih _ _ he

/-- C2: with a mounted container and non-empty html, the rewrite-on-mount
routine performs (a) head style and meta injection, (b) the body replacement
cascade, (c) the single innerHTML assignment, (d) the post-insertion fixups,
and (e) script injection, in that order; `setInner` occurs exactly once; no
script append precedes it and every stylesheet append precedes it. -/
theorem C2_phaseOrder (mounted : Bool) (html : String) (doc : DocModel)
    (hm : mounted = true) (hh : html.data.isEmpty = false) :
    effectTrace mounted html doc =
      stylePhase doc.headStyles [] ++ metaPhase doc.metas ++ [Ev.bodyCascade] ++
        Ev.setInner :: Ev.fixups :: scriptPhase doc.scripts [] ∧
    (effectTrace mounted html doc).count Ev.setInner = 1 ∧
    (∀ e ∈ stylePhase doc.headStyles [] ++ metaPhase doc.metas ++ [Ev.bodyCascade],
      isScriptEv e = false ∧ e ≠ Ev.setInner) ∧
    (∀ e ∈ Ev.fixups :: scriptPhase doc.scripts [], isSheetEv e = false ∧ e ≠ Ev.setInner) := by
  subst hm
  have htr : effectTrace true html doc =
      stylePhase doc.headStyles [] ++ metaPhase doc.metas ++ [Ev.bodyCascade] ++
        Ev.setInner :: Ev.fixups :: scriptPhase doc.scripts [] := by
    unfold effectTrace
    rw [hh]
    rfl
  have hpre : ∀ e ∈ stylePhase doc.headStyles [] ++ metaPhase doc.metas ++ [Ev.bodyCascade],
      isScriptEv e = false ∧ e ≠ Ev.setInner := by
    intro e he
    rcases List.mem_append.mp he with he | he
    · rcases List.mem_append.mp he with he | he
      · have := stylePhase_events _ _ _ he
        cases e <;> simp_all [isSheetEv, isScriptEv]
      · rw [metaPhase_events _ _ he]
        exact ⟨rfl, by simp⟩
    · rcases List.mem_cons.mp he with rfl | he
      · exact ⟨rfl, by simp⟩
      · exact absurd he (by simp)
  have hpost : ∀ e ∈ Ev.fixups :: scriptPhase doc.scripts [],
      isSheetEv e = false ∧ e ≠ Ev.setInner := by
    intro e he
    rcases List.mem_cons.mp he with rfl | he
    · exact ⟨rfl, by simp⟩
    · have := scriptPhase_events _ _ _ he
      cases e <;> simp_all [isSheetEv, isScriptEv]
  refine ⟨htr, ?_, hpre, hpost⟩
  rw [htr]
  have h1 : (stylePhase doc.headStyles []).count Ev.setInner = 0 := by
    rw [List.count_eq_zero]
    intro hmem
    have := stylePhase_events _ _ _ hmem
    simp [isSheetEv] at this
  have h2 : (metaPhase doc.metas).count Ev.setInner = 0 := by
    rw [List.count_eq_zero]
    intro hmem
    have := metaPhase_events _ _ hmem
    simp at this
  have h3 : (scriptPhase doc.scripts []).count Ev.setInner = 0 := by
    rw [List.count_eq_zero]
    intro hmem
    have := scriptPhase_events _ _ _ hmem
    simp [isScriptEv] at this
  simp [List.count_append, List.count_cons, h1, h2, h3]

/-- C2 witness: the phase order at a concrete document with one remote
stylesheet, one fresh meta element and one remote script. -/
theorem C2_phaseOrder_witness :
    effectTrace true "<html>"
        ⟨[HeadStyleEl.linkSheet "https://alluredigital.net/a.css".data], [false],
         [ScriptEl.ext "https://alluredigital.net/x.js".data]⟩ =
      stylePhase [HeadStyleEl.linkSheet "https://alluredigital.net/a.css".data] [] ++
        metaPhase [false] ++ [Ev.bodyCascade] ++
        Ev.setInner :: Ev.fixups ::
          scriptPhase [ScriptEl.ext "https://alluredigital.net/x.js".data] [] ∧
    (effectTrace true "<html>"
        ⟨[HeadStyleEl.linkSheet "https://alluredigital.net/a.css".data], [false],
         [ScriptEl.ext "https://alluredigital.net/x.js".data]⟩).count Ev.setInner = 1 ∧
    (∀ e ∈ stylePhase [HeadStyleEl.linkSheet "https://alluredigital.net/a.css".data] [] ++
        metaPhase [false] ++ [Ev.bodyCascade], isScriptEv e = false ∧ e ≠ Ev.setInner) ∧
    (∀ e ∈ Ev.fixups :: scriptPhase [ScriptEl.ext "https://alluredigital.net/x.js".data] [],
      isSheetEv e = false ∧ e ≠ Ev.setInner) :=
  C2_phaseOrder true "<html>"
    ⟨[HeadStyleEl.linkSheet "https://alluredigital.net/a.css".data], [false],
     [ScriptEl.ext "https://alluredigital.net/x.js".data]⟩ rfl (by decide)

theorem all_set_true : ∀ (l : List Bool) (i : Nat),
    l.all (fun b => b) = true → (l.set i true).all (fun b => b) = true := by
  intro l
  induction l with
  | nil => intro i h; simp
  | cons a t ih =>
    intro i h
    simp only [List.all_cons, Bool.and_eq_true] at h
    cases i with
    | zero => simp only [List.set, List.all_cons]; simp [h.2]
    | succ j =>
      simp only [List.set, List.all_cons, Bool.and_eq_true]
      exact ⟨h.1, ih j h.2⟩

theorem runR_inv (n : Nat) : ∀ (evs : List REv) (st st2 : LoadSt),
    runR n st evs = some st2 →
    (st.loading = false → n = 0 ∨ st.resolved.all (fun b => b) = true) →
    (st2.loading = false → n = 0 ∨ st2.resolved.all (fun b => b) = true) := by
  intro evs
  induction evs with
  | nil =>
    intro st st2 h hP
    unfold runR at h
    injection h with h
    subst h
    exact hP
  | cons e es ih =>
    intro st st2 h hP
    unfold runR at h
    cases hs : stepR n st e with
    | none =>
      simp only [hs] at h
      exact absurd h (by simp)
    | some stm =>
      simp only [hs] at h
      refine ih stm st2 h ?_
      cases e with
      | load i =>
        simp only [stepR] at hs
        split at hs
        · injection hs with hs
          subst hs
          intro hl
          rcases hP hl with h0 | ha
          · exact Or.inl h0
          · exact Or.inr (all_set_true _ _ ha)
        · exact absurd hs (by simp)
      | err i =>
        simp only [stepR] at hs
        split at hs
        · injection hs with hs
          subst hs
          intro hl
          rcases hP hl with h0 | ha
          · exact Or.inl h0
          · exact Or.inr (all_set_true _ _ ha)
        · exact absurd hs (by simp)
      | t300 =>
        simp only [stepR] at hs
        split at hs
        · rename_i hg
          injection hs with hs
          subst hs
          intro _
          exact Or.inr hg.2
        · exact absurd hs (by simp)
      | t100 =>
        simp only [stepR] at hs
        split at hs
        · rename_i hg
          injection hs with hs
          subst hs
          intro _
          exact Or.inl hg
        · exact absurd hs (by simp)

/-- C7: in every valid run of the readiness machine, `isLoading` is false
only if there were no injected external scripts (the 100ms branch) or every
injected script has fired its load or error event (Promise.all plus the
300ms delay); the overlay is rendered exactly while `isLoading` and the
container is held at opacity 0 exactly while `isLoading`; an error event
settles a script exactly like a load event, and the readiness timeouts are
enabled as described. -/
theorem C7_readiness (doc : DocModel) (evs : List REv) (st : LoadSt)
    (hrun : runR (numExt doc) (initSt (numExt doc)) evs = some st)
    (hdone : st.loading = false) :
    (numExt doc = 0 ∨ st.resolved.all (fun b => b) = true) ∧
    (∀ b, (renderView b).overlayVisible = b ∧
      (renderView b).containerOpacity = (if b then 0 else 1)) ∧
    (∀ (m : Nat) (s : LoadSt) (i : Nat), stepR m s (REv.err i) = stepR m s (REv.load i)) ∧
    (∀ (m : Nat) (s : LoadSt), s.resolved.all (fun b => b) = true → 0 < m →
      stepR m s REv.t300 = some ⟨s.resolved, false⟩) ∧
    (∀ s : LoadSt, stepR 0 s REv.t100 = some ⟨s.resolved, false⟩) := by
  refine ⟨?_, fun b => ⟨rfl, rfl⟩, fun m s i => rfl, fun m s ha hm => ?_, fun s => rfl⟩
  · exact runR_inv _ evs _ st hrun (fun hl => absurd hl (by simp [initSt])) hdone
  · unfold stepR
    rw [if_pos ⟨hm, ha⟩]

/-- C7 witness: a single external script that fails to load still lets the
300ms readiness path fire. -/
theorem C7_readiness_witness :
    (numExt ⟨[], [], [ScriptEl.ext "https://alluredigital.net/x.js".data]⟩ = 0 ∨
      (LoadSt.mk [true] false).resolved.all (fun b => b) = true) ∧
    (∀ b, (renderView b).overlayVisible = b ∧
      (renderView b).containerOpacity = (if b then 0 else 1)) ∧
    (∀ (m : Nat) (s : LoadSt) (i : Nat), stepR m s (REv.err i) = stepR m s (REv.load i)) ∧
    (∀ (m : Nat) (s : LoadSt), s.resolved.all (fun b => b) = true → 0 < m →
      stepR m s REv.t300 = some ⟨s.resolved, false⟩) ∧
    (∀ s : LoadSt, stepR 0 s REv.t100 = some ⟨s.resolved, false⟩) :=
  C7_readiness ⟨[], [], [ScriptEl.ext "https://alluredigital.net/x.js".data]⟩
    [REv.err 0, REv.t300] ⟨[true], false⟩ (by decide) rfl

theorem all_of_subset {p : Char → Bool} {s1 s2 : List Char}
    (hsub : ∀ a ∈ s2, a ∈ s1) (h : s1.all p = true) : s2.all p = true := by
  rw [List.all_eq_true] at h ⊢
  exact fun a ha => h a (hsub a ha)

theorem mem_gDelGo (pat : List PTok) :
    ∀ (s : List Char) (skip : Nat) (a : Char), a ∈ gDelGo pat skip s → a ∈ s := by
  intro s
  induction s with
  | nil => intro skip a h; simp [gDelGo] at h
  | cons c t ih =>
    intro skip a h
    cases skip with
    | succ k =>
      unfold gDelGo at h
      exact List.mem_cons_of_mem c (ih k a h)
    | zero =>
      unfold gDelGo at h
      split at h
      · exact List.mem_cons_of_mem c (ih _ a h)
      · rcases List.mem_cons.mp h with rfl | h
        · exact List.mem_cons_self _ _
        · exact List.mem_cons_of_mem c (ih 0 a h)
      · rcases List.mem_cons.mp h with rfl | h
        · exact List.mem_cons_self _ _
        · exact List.mem_cons_of_mem c (ih 0 a h)

theorem gDel_all {p : Char → Bool} (pat : List PTok) (s : List Char)
    (h : s.all p = true) : (gDel pat s).all p = true :=
  all_of_subset (fun a ha => mem_gDelGo pat s 0 a ha) h

theorem trimStr_subset (s : List Char) : ∀ a ∈ trimStr s, a ∈ s := by
  intro a ha
  unfold trimStr at ha
  rw [List.mem_reverse] at ha
  have h1 := (@List.dropWhile_sublist _ ((s.dropWhile isWS).reverse) isWS).subset ha
  rw [List.mem_reverse] at h1
  exact (List.dropWhile_sublist isWS).subset h1

theorem cleanCh_lowChar (c : Char) (h : cleanCh c = true) : cleanCh (lowChar c) = true := by
  unfold lowChar
  split
  · rename_i hc
    have h1 : 65 ≤ c.toNat := by
      have := hc.1; rw [Char.le_def] at this; exact this
    have hv : (c.toNat + 32).isValidChar := by
      constructor
      have h2 : c.toNat ≤ 90 := by
        have := hc.2; rw [Char.le_def] at this; exact this
      omega
    have ht : (Char.ofNat (c.toNat + 32)).toNat = c.toNat + 32 := by
      unfold Char.ofNat
      split
      · rfl
      · rename_i hnv; exact absurd hv hnv
    unfold cleanCh
    rw [Bool.and_eq_true]
    constructor
    · rw [Bool.not_eq_true']
      by_contra hdig
      rw [Bool.not_eq_false] at hdig
      unfold isDigitCh at hdig
      rw [Bool.and_eq_true, decide_eq_true_eq, decide_eq_true_eq] at hdig
      have h5 : (Char.ofNat (c.toNat + 32)).toNat ≤ ('9' : Char).toNat := by
        have := hdig.2; rw [Char.le_def] at this; exact this
      rw [ht] at h5
      have h9 : ('9' : Char).toNat = 57 := by decide
      omega
    · rw [bne_iff_ne]
      intro he
      have h6 := congrArg Char.toNat he
      rw [ht] at h6
      have h64 : ('@' : Char).toNat = 64 := by decide
      omega
  · exact h

theorem allClean_map_lowChar (l : List Char) (h : l.all cleanCh = true) :
    (l.map lowChar).all cleanCh = true := by
  rw [List.all_eq_true] at h ⊢
  intro a ha
  obtain ⟨b, hb, rfl⟩ := List.mem_map.mp ha
  exact cleanCh_lowChar b (h b hb)

set_option maxHeartbeats 1600000 in
theorem parseAttrsGo_clean : ∀ (fuel : Nat) (s : List Char), s.all cleanCh = true →
    attrsClean (parseAttrsGo fuel s).1 = true ∧ (parseAttrsGo fuel s).2.all cleanCh = true := by
  intro fuel
  induction fuel with
  | zero => intro s hs; exact ⟨rfl, hs⟩
  | succ fuel ih =>
    intro s hs
    have hd : (s.dropWhile isWS).all cleanCh = true :=
      all_of_subset (fun a ha => (List.dropWhile_sublist isWS).subset ha) hs
    unfold parseAttrsGo
    split
    · exact ⟨rfl, rfl⟩
    · rename_i c r heq
      rw [heq, List.all_cons, Bool.and_eq_true] at hd
      split
      · exact ⟨rfl, hd.2⟩
      · split
        · split
          · exact ⟨rfl, all_of_subset (fun a ha => (List.drop_sublist _ _).subset ha) hd.2⟩
          · exact ih r hd.2
        · split
          · exact ih r hd.2
          · have hall : (c :: r).all cleanCh = true := by
              rw [List.all_cons, Bool.and_eq_true]; exact hd
            have hname : ((c :: r).takeWhile attrNameCh).all cleanCh = true :=
              all_of_subset (fun a ha => (List.takeWhile_sublist _).subset ha) hall
            have hrest : ((c :: r).drop ((c :: r).takeWhile attrNameCh).length).all
                cleanCh = true :=
              all_of_subset (fun a ha => (List.drop_sublist _ _).subset ha) hall
            split
            · have hr2 : ((((c :: r).drop ((c :: r).takeWhile attrNameCh).length)).drop 2).all
                  cleanCh = true :=
                all_of_subset (fun a ha => (List.drop_sublist _ _).subset ha) hrest
              have hv : (((((c :: r).drop ((c :: r).takeWhile attrNameCh).length)).drop
                  2).takeWhile (fun ch => ch != '"')).all cleanCh = true :=
                all_of_subset (fun a ha => (List.takeWhile_sublist _).subset ha) hr2
              have hafter := @all_of_subset _ _
                (((((c :: r).drop ((c :: r).takeWhile attrNameCh).length).drop 2).drop
                    ((((c :: r).drop ((c :: r).takeWhile attrNameCh).length).drop 2).takeWhile
                      (fun ch => ch != '"')).length).drop 1)
                (fun a ha =>
                  (List.drop_sublist _ _).subset ((List.drop_sublist _ _).subset ha)) hr2
              obtain ⟨ha1, ha2⟩ := ih _ hafter
              refine ⟨?_, ha2⟩
              unfold attrsClean at ha1 ⊢
              rw [List.all_cons, Bool.and_eq_true]
              refine ⟨?_, ha1⟩
              rw [Bool.and_eq_true]
              exact ⟨allClean_map_lowChar _ hname, hv⟩
            · obtain ⟨ha1, ha2⟩ := ih _ hrest
              refine ⟨?_, ha2⟩
              unfold attrsClean at ha1 ⊢
              rw [List.all_cons, Bool.and_eq_true]
              refine ⟨?_, ha1⟩
              rw [Bool.and_eq_true]
              exact ⟨allClean_map_lowChar _ hname, rfl⟩

theorem dropClose_clean (s : List Char) (h : s.all cleanCh = true) :
    (dropClose s).all cleanCh = true := by
  unfold dropClose
  split
  · exact all_of_subset (fun a ha => (List.drop_sublist _ _).subset
      ((List.dropWhile_sublist _).subset ((List.drop_sublist _ _).subset ha))) h
  · exact h

set_option maxHeartbeats 1600000 in
theorem parseNodesGo_clean : ∀ (fuel : Nat) (s : List Char), s.all cleanCh = true →
    cleanF (parseNodesGo fuel s).1 = true ∧ (parseNodesGo fuel s).2.all cleanCh = true := by
  intro fuel
  induction fuel with
  | zero => intro s hs; exact ⟨rfl, hs⟩
  | succ fuel ih =>
    intro s hs
    cases s with
    | nil => exact ⟨rfl, rfl⟩
    | cons c0 rest0 =>
      rw [List.all_cons, Bool.and_eq_true] at hs
      unfold parseNodesGo
      split
      · split
        · exact ⟨by decide, rfl⟩
        · rename_i c rest2
          split
          · refine ⟨rfl, ?_⟩
            rw [List.all_cons, Bool.and_eq_true]
            exact ⟨hs.1, hs.2⟩
          · split
            · have hall : (c :: rest2).all cleanCh = true := hs.2
              have htag : (((c :: rest2)).takeWhile tagCh).all cleanCh = true :=
                all_of_subset (fun a ha => (List.takeWhile_sublist tagCh).subset ha) hall
              have hafter : (((c :: rest2)).drop
                  (((c :: rest2)).takeWhile tagCh).length).all cleanCh = true :=
                all_of_subset (fun a ha => (List.drop_sublist _ _).subset ha) hall
              obtain ⟨hpa1, hpa2⟩ := parseAttrsGo_clean
                (((c :: rest2)).drop (((c :: rest2)).takeWhile tagCh).length).length
                (((c :: rest2)).drop (((c :: rest2)).takeWhile tagCh).length) hafter
              split
              · obtain ⟨hsib1, hsib2⟩ := ih _ hpa2
                refine ⟨?_, hsib2⟩
                unfold cleanF cleanN
                rw [Bool.and_eq_true, Bool.and_eq_true, Bool.and_eq_true]
                exact ⟨⟨⟨allClean_map_lowChar _ htag, hpa1⟩, rfl⟩, hsib1⟩
              · obtain ⟨hkid1, hkid2⟩ := ih _ hpa2
                obtain ⟨hsib1, hsib2⟩ := ih _ (dropClose_clean _ hkid2)
                refine ⟨?_, hsib2⟩
                unfold cleanF cleanN
                rw [Bool.and_eq_true, Bool.and_eq_true, Bool.and_eq_true]
                exact ⟨⟨⟨allClean_map_lowChar _ htag, hpa1⟩, hkid1⟩, hsib1⟩
            · obtain ⟨hsib1, hsib2⟩ := ih _ hs.2
              refine ⟨?_, hsib2⟩
              unfold cleanF cleanN
              rw [Bool.and_eq_true]
              exact ⟨by decide, hsib1⟩
      · have hall : (c0 :: rest0).all cleanCh = true := by
          rw [List.all_cons, Bool.and_eq_true]; exact hs
        obtain ⟨hsib1, hsib2⟩ := ih _
          (all_of_subset (fun a ha => (List.drop_sublist _ _).subset ha) hall)
        refine ⟨?_, hsib2⟩
        unfold cleanF cleanN
        rw [Bool.and_eq_true]
        refine ⟨?_, hsib1⟩
        exact all_of_subset (fun a ha => (List.takeWhile_sublist _).subset ha) hall

mutual
theorem textContentN_clean (n : HNode) (h : cleanN n = true) :
    (textContentN n).all cleanCh = true := by
  cases n with
  | htext s => exact h
  | helem tag attrs kids =>
    unfold cleanN at h
    rw [Bool.and_eq_true] at h
    exact textContentF_clean kids h.2
termination_by structural n
theorem textContentF_clean (f : HForest) (h : cleanF f = true) :
    (textContentF f).all cleanCh = true := by
  cases f with
  | fnil => rfl
  | fcons n f2 =>
    unfold cleanF at h
    rw [Bool.and_eq_true] at h
    show ((textContentN n) ++ (textContentF f2)).all cleanCh = true
    rw [List.all_append, Bool.and_eq_true]
    exact ⟨textContentN_clean n h.1, textContentF_clean f2 h.2⟩
termination_by structural f
end

theorem domTextClean_clean (s : List Char) (h : s.all cleanCh = true) :
    (domTextClean s).all cleanCh = true :=
  gDel_all _ _ (gDel_all _ _ (gDel_all _ _ (gDel_all _ _ (gDel_all _ _ h))))

mutual
theorem contactDomN_clean (n : HNode) (h : cleanN n = true) :
    cleanN (contactDomN n) = true := by
  cases n with
  | htext s => exact h
  | helem tag attrs kids =>
    unfold cleanN at h
    rw [Bool.and_eq_true] at h
    unfold contactDomN
    split
    · split
      · unfold cleanN
        rw [Bool.and_eq_true]
        refine ⟨h.1, ?_⟩
        show (cleanN (HNode.htext (trimStr (domTextClean (textContentF kids)))) &&
          cleanF HForest.fnil) = true
        rw [Bool.and_eq_true]
        refine ⟨?_, rfl⟩
        show (trimStr (domTextClean (textContentF kids))).all cleanCh = true
        exact all_of_subset (trimStr_subset _)
          (domTextClean_clean _ (textContentF_clean kids h.2))
      · unfold cleanN
        rw [Bool.and_eq_true]
        exact ⟨h.1, contactDomF_clean kids h.2⟩
    · unfold cleanN
      rw [Bool.and_eq_true]
      exact ⟨h.1, contactDomF_clean kids h.2⟩
termination_by structural n
theorem contactDomF_clean (f : HForest) (h : cleanF f = true) :
    cleanF (contactDomF f) = true := by
  cases f with
  | fnil => rfl
  | fcons n f2 =>
    unfold cleanF at h
    rw [Bool.and_eq_true] at h
    unfold contactDomF cleanF
    rw [Bool.and_eq_true]
    exact ⟨contactDomN_clean n h.1, contactDomF_clean f2 h.2⟩
termination_by structural f
end

theorem serAttrs_clean (attrs : List (List Char × List Char))
    (h : attrsClean attrs = true) : (serAttrs attrs).all cleanCh = true := by
  induction attrs with
  | nil => rfl
  | cons a t ih =>
    obtain ⟨n, v⟩ := a
    unfold attrsClean at h
    rw [List.all_cons, Bool.and_eq_true, Bool.and_eq_true] at h
    unfold serAttrs
    rw [List.all_cons, Bool.and_eq_true]
    refine ⟨by decide, ?_⟩
    rw [List.all_append, Bool.and_eq_true]
    constructor
    · rw [List.all_append, Bool.and_eq_true]
      refine ⟨h.1.1, ?_⟩
      rw [List.all_cons, List.all_cons, Bool.and_eq_true, Bool.and_eq_true]
      exact ⟨by decide, by decide, h.1.2⟩
    · rw [List.all_cons, Bool.and_eq_true]
      exact ⟨by decide, ih h.2⟩

mutual
theorem serN_clean (n : HNode) (h : cleanN n = true) : (serN n).all cleanCh = true := by
  cases n with
  | htext s => exact h
  | helem tag attrs kids =>
    unfold cleanN at h
    rw [Bool.and_eq_true, Bool.and_eq_true] at h
    unfold serN
    split
    · rw [List.all_cons, Bool.and_eq_true]
      refine ⟨by decide, ?_⟩
      rw [List.all_append, Bool.and_eq_true, List.all_append, Bool.and_eq_true]
      exact ⟨⟨h.1.1, serAttrs_clean attrs h.1.2⟩, by decide⟩
    · rw [List.all_append, Bool.and_eq_true]
      refine ⟨?_, by decide⟩
      rw [List.all_append, Bool.and_eq_true]
      constructor
      · rw [List.all_append, Bool.and_eq_true]
        constructor
        · rw [List.all_cons, Bool.and_eq_true]
          refine ⟨by decide, ?_⟩
          rw [List.all_append, Bool.and_eq_true, List.all_append, Bool.and_eq_true]
          exact ⟨⟨h.1.1, serAttrs_clean attrs h.1.2⟩, by decide⟩
        · exact serF_clean kids h.2
      · rw [List.all_cons, List.all_cons, Bool.and_eq_true, Bool.and_eq_true]
        exact ⟨by decide, by decide, h.1.1⟩
termination_by structural n
theorem serF_clean (f : HForest) (h : cleanF f = true) : (serF f).all cleanCh = true := by
  cases f with
  | fnil => rfl
  | fcons n f2 =>
    unfold cleanF at h
    rw [Bool.and_eq_true] at h
    unfold serF
    rw [List.all_append, Bool.and_eq_true]
    exact ⟨serN_clean n h.1, serF_clean f2 h.2⟩
termination_by structural f
end

theorem matchPat_lit_mem : ∀ (pat : List PTok) (s : List Char) (k : Nat),
    matchPat pat s = some k → ∀ c : Char, PTok.lit c ∈ pat →
    ∃ b ∈ s, lowChar b = lowChar c := by
  intro pat
  induction pat with
  | nil => intro s k h c hc; simp at hc
  | cons p ps ih =>
    intro s k h c hc
    cases p with
    | lit d =>
      cases s with
      | nil => exact absurd h (by simp [matchPat])
      | cons b bs =>
        unfold matchPat at h
        split at h
        · rename_i hbeq
          rcases List.mem_cons.mp hc with heq | hc2
          · injection heq with heq
            subst heq
            exact ⟨b, List.mem_cons_self _ _, (beq_iff_eq.mp hbeq).symm⟩
          · cases hm : matchPat ps bs with
            | none => rw [hm] at h; simp at h
            | some k2 =>
              obtain ⟨b2, hb2, hlow⟩ := ih bs k2 hm c hc2
              exact ⟨b2, List.mem_cons_of_mem b hb2, hlow⟩
        · exact absurd h (by simp)
    | star cl =>
      have hc2 : PTok.lit c ∈ ps := by
        rcases List.mem_cons.mp hc with heq | h2
        · exact absurd heq (by simp)
        · exact h2
      unfold matchPat at h
      cases hm : matchPat ps (s.drop (s.takeWhile cl).length) with
      | none => rw [hm] at h; simp at h
      | some k2 =>
        obtain ⟨b2, hb2, hlow⟩ := ih _ k2 hm c hc2
        exact ⟨b2, (List.drop_sublist _ _).subset hb2, hlow⟩
    | plus cl =>
      have hc2 : PTok.lit c ∈ ps := by
        rcases List.mem_cons.mp hc with heq | h2
        · exact absurd heq (by simp)
        · exact h2
      unfold matchPat at h
      split at h
      · exact absurd h (by simp)
      · cases hm : matchPat ps (s.drop (s.takeWhile cl).length) with
        | none => rw [hm] at h; simp at h
        | some k2 =>
          obtain ⟨b2, hb2, hlow⟩ := ih _ k2 hm c hc2
          exact ⟨b2, (List.drop_sublist _ _).subset hb2, hlow⟩

theorem hasPat_lit_mem : ∀ (s : List Char) (pat : List PTok) (c : Char),
    hasPat pat s = true → PTok.lit c ∈ pat → ∃ b ∈ s, lowChar b = lowChar c := by
  intro s
  induction s with
  | nil =>
    intro pat c h hc
    unfold hasPat at h
    rw [Option.isSome_iff_exists] at h
    obtain ⟨k, hk⟩ := h
    obtain ⟨b, hb, _⟩ := matchPat_lit_mem pat [] k hk c hc
    simp at hb
  | cons a t ih =>
    intro pat c h hc
    unfold hasPat at h
    rw [Bool.or_eq_true] at h
    rcases h with h | h
    · rw [Option.isSome_iff_exists] at h
      obtain ⟨k, hk⟩ := h
      exact matchPat_lit_mem pat (a :: t) k hk c hc
    · obtain ⟨b, hb, hlow⟩ := ih pat c h hc
      exact ⟨b, List.mem_cons_of_mem a hb, hlow⟩

theorem lowChar_small (c : Char) (h : c.toNat < 65) : lowChar c = c := by
  unfold lowChar
  split
  · rename_i hc
    exfalso
    have h1 : 65 ≤ c.toNat := by
      have := hc.1; rw [Char.le_def] at this; exact this
    omega
  · rfl

theorem clean_no_pat (s : List Char) (hs : s.all cleanCh = true) (pat : List PTok)
    (c : Char) (hsmall : c.toNat < 65) (hcc : cleanCh c = false)
    (hc : PTok.lit c ∈ pat) : hasPat pat s = false := by
  by_contra hp
  rw [Bool.not_eq_false] at hp
  obtain ⟨b, hb, hlow⟩ := hasPat_lit_mem s pat c hp hc
  rw [lowChar_small c hsmall] at hlow
  have hbc : b = c := lowChar_eq_of_small b c hsmall hlow
  subst hbc
  rw [List.all_eq_true] at hs
  rw [hs b hb] at hcc
  exact absurd hcc (by simp)

theorem contactStringPhase_clean (s : List Char) (h : s.all cleanCh = true) :
    (contactStringPhase s).all cleanCh = true :=
  gDel_all _ _ (gDel_all _ _ (gDel_all _ _ (gDel_all _ _ (gDel_all _ _ (gDel_all _ _
    (gDel_all _ _ (gDel_all _ _ (gDel_all _ _ (gDel_all _ _ h)))))))))

/-- C4 (counterexample): a single left-to-right global pass can reassemble an
occurrence from the flanks of removed matches: on the input
`212-301212-301-7615-7615` the `/212-301-7615/gi` pass removes the middle
occurrence and the remaining flanks concatenate to `212-301-7615`, which no
later pass removes — so the output of removeContactInfo still contains the
phone number, contradicting the claim. -/
theorem C4_counterexample :
    removeContactInfo "212-301212-301-7615-7615" = "212-301-7615" ∧
    hasPat phonePat2 (removeContactInfo "212-301212-301-7615-7615").data = true := by
  refine ⟨by decide, by decide⟩

/-- C4 (amended): every banned pattern contains a decimal digit or an `@`,
and removeContactInfo only ever deletes characters, so for any input with no
digit and no `@` the output matches none of the phone, email or address
patterns (in general an occurrence can survive only when reassembled from
the flanks of removed matches); and every anchor whose href starts with
`tel:` or `mailto:` has its href attribute removed and
`pointer-events: none` appended to its style. -/
theorem C4_contactRemoval_amended :
    (∀ html : String, html.data.all cleanCh = true →
      hasPat phonePat1 (removeContactInfo html).data = false ∧
      hasPat phonePat2 (removeContactInfo html).data = false ∧
      hasPat phonePat3 (removeContactInfo html).data = false ∧
      hasPat phonePat4 (removeContactInfo html).data = false ∧
      hasPat emailPat2 (removeContactInfo html).data = false ∧
      hasPat addrClaimPat (removeContactInfo html).data = false ∧
      hasPat addrPat2 (removeContactInfo html).data = false) ∧
    (∀ href style : String,
      (isPref "tel:".data href.data || isPref "mailto:".data href.data) = true →
      (fixAnchor href style).1 = none ∧
      hasSub "pointer-events: none".data ((fixAnchor href style).2).data = true) := by
  constructor
  · intro html hcl
    have hout : (removeContactInfo html).data.all cleanCh = true := by
      show (serF _).all cleanCh = true
      exact serF_clean _ (contactDomF_clean _
        (parseNodesGo_clean _ _ (contactStringPhase_clean _ hcl)).1)
    refine ⟨?_, ?_, ?_, ?_, ?_, ?_, ?_⟩
    · exact clean_no_pat _ hout _ '7' (by decide) (by decide)
        (List.mem_append_right _ (List.mem_map.mpr ⟨'7', by decide, rfl⟩))
    · exact clean_no_pat _ hout _ '7' (by decide) (by decide)
        (List.mem_map.mpr ⟨'7', by decide, rfl⟩)
    · exact clean_no_pat _ hout _ '7' (by decide) (by decide)
        (List.mem_append_right _ (List.mem_map.mpr ⟨'7', by decide, rfl⟩))
    · exact clean_no_pat _ hout _ '7' (by decide) (by decide)
        (List.mem_append_right _ (List.mem_map.mpr ⟨'7', by decide, rfl⟩))
    · exact clean_no_pat _ hout _ '@' (by decide) (by decide)
        (List.mem_cons_of_mem _ (List.mem_map.mpr ⟨'@', by decide, rfl⟩))
    · exact clean_no_pat _ hout _ '5' (by decide) (by decide)
        (List.mem_append_left _ (List.mem_append_left _ (List.mem_append_left _
          (List.mem_append_left _ (List.mem_append_left _ (List.mem_append_left _
            (List.mem_map.mpr ⟨'5', by decide, rfl⟩)))))))
    · exact clean_no_pat _ hout _ '1' (by decide) (by decide)
        (List.mem_append_right _ (List.mem_map.mpr ⟨'1', by decide, rfl⟩))
  · intro href style h
    constructor
    · unfold fixAnchor
      rw [h]
      rfl
    · unfold fixAnchor
      rw [h]
      show hasSub "pointer-events: none".data (trimStr (style.data ++ ptrEventsSuffix)) = true
      exact trim_keeps_ptr style.data

/-- C4 witness: clean input yields pattern-free output, and a tel: anchor is
neutralized, at concrete inputs. -/
theorem C4_contactRemoval_amended_witness :
    (hasPat phonePat1 (removeContactInfo "<p>hello world</p>").data = false ∧
      hasPat phonePat2 (removeContactInfo "<p>hello world</p>").data = false ∧
      hasPat phonePat3 (removeContactInfo "<p>hello world</p>").data = false ∧
      hasPat phonePat4 (removeContactInfo "<p>hello world</p>").data = false ∧
      hasPat emailPat2 (removeContactInfo "<p>hello world</p>").data = false ∧
      hasPat addrClaimPat (removeContactInfo "<p>hello world</p>").data = false ∧
      hasPat addrPat2 (removeContactInfo "<p>hello world</p>").data = false) ∧
    ((fixAnchor "tel:2123017615" "color: red").1 = none ∧
      hasSub "pointer-events: none".data
        ((fixAnchor "tel:2123017615" "color: red").2).data = true) :=
  ⟨C4_contactRemoval_amended.1 "<p>hello world</p>" (by decide),
   C4_contactRemoval_amended.2 "tel:2123017615" "color: red" (by decide)⟩

theorem attrSHVals_cons (n w : List Char) (t : List (List Char × List Char)) :
    attrSHVals ((n, w) :: t) =
      (if n = "src".data ∨ n = "href".data then [w] else []) ++ attrSHVals t := by
  unfold attrSHVals
  rw [List.filterMap_cons]
  by_cases h : (n = "src".data ∨ n = "href".data)
  · simp [h]
  · simp [h]

theorem attrSHVals_setAttr (attrs : List (List Char × List Char)) (name v : List Char)
    (h1 : ¬name = "src".data) (h2 : ¬name = "href".data) :
    attrSHVals (setAttr attrs name v) = attrSHVals attrs := by
  have hno : ¬(name = "src".data ∨ name = "href".data) := fun h => h.elim h1 h2
  induction attrs with
  | nil =>
    show attrSHVals [(name, v)] = attrSHVals []
    rw [attrSHVals_cons, if_neg hno]
    rfl
  | cons a t ih =>
    obtain ⟨n, w⟩ := a
    show attrSHVals (if n = name then (n, v) :: t else (n, w) :: setAttr t name v) =
      attrSHVals ((n, w) :: t)
    by_cases hn : n = name
    · rw [if_pos hn]
      subst hn
      rw [attrSHVals_cons, attrSHVals_cons, if_neg hno, if_neg hno]
    · rw [if_neg hn, attrSHVals_cons, attrSHVals_cons, ih]

theorem attrSHVals_dataStep (name : List Char) (attrs : List (List Char × List Char))
    (h1 : ¬name = "src".data) (h2 : ¬name = "href".data) :
    attrSHVals (dataAttrStep name attrs) = attrSHVals attrs := by
  unfold dataAttrStep
  split
  · split
    · exact attrSHVals_setAttr attrs name _ h1 h2
    · rfl
  · rfl

mutual
theorem walk_shN (ctx : WalkCtx) (n : HNode) : shValsN (walkN ctx n) = shValsN n := by
  cases n with
  | htext s =>
    unfold walkN
    split
    · rfl
    · split
      · rfl
      · rfl
  | helem tag attrs kids =>
    show attrSHVals attrs ++ shValsF (walkF (childCtx tag attrs ctx) kids) =
      attrSHVals attrs ++ shValsF kids
    rw [walk_shF (childCtx tag attrs ctx) kids]
termination_by structural n
theorem walk_shF (ctx : WalkCtx) (f : HForest) : shValsF (walkF ctx f) = shValsF f := by
  cases f with
  | fnil => rfl
  | fcons n f2 =>
    show shValsN (walkN ctx n) ++ shValsF (walkF ctx f2) = shValsN n ++ shValsF f2
    rw [walk_shN ctx n, walk_shF ctx f2]
termination_by structural f
end

mutual
theorem title_shN (n : HNode) (v : List Char) (h : v ∈ shValsN (titleN n)) :
    v ∈ shValsN n := by
  cases n with
  | htext s => exact h
  | helem tag attrs kids =>
    unfold titleN at h
    split at h
    · have h' : v ∈ attrSHVals attrs ++ ([] ++ ([] : List (List Char))) := h
      show v ∈ attrSHVals attrs ++ shValsF kids
      rw [List.mem_append]
      exact Or.inl (by simpa using h')
    · have h' : v ∈ attrSHVals attrs ++ shValsF (titleF kids) := h
      show v ∈ attrSHVals attrs ++ shValsF kids
      rw [List.mem_append] at h' ⊢
      rcases h' with h' | h'
      · exact Or.inl h'
      · exact Or.inr (title_shF kids v h')
termination_by structural n
theorem title_shF (f : HForest) (v : List Char) (h : v ∈ shValsF (titleF f)) :
    v ∈ shValsF f := by
  cases f with
  | fnil => exact h
  | fcons n f2 =>
    have h' : v ∈ shValsN (titleN n) ++ shValsF (titleF f2) := h
    show v ∈ shValsN n ++ shValsF f2
    rw [List.mem_append] at h' ⊢
    rcases h' with h' | h'
    · exact Or.inl (title_shN n v h')
    · exact Or.inr (title_shF f2 v h')
termination_by structural f
end

mutual
theorem alt_shN (n : HNode) : shValsN (altN n) = shValsN n := by
  cases n with
  | htext s => rfl
  | helem tag attrs kids =>
    unfold altN
    split
    · split
      · split
        · show attrSHVals (setAttr attrs "alt".data _) ++ shValsF (altF kids) =
            attrSHVals attrs ++ shValsF kids
          rw [attrSHVals_setAttr attrs "alt".data _ (by decide) (by decide), alt_shF kids]
        · show attrSHVals attrs ++ shValsF (altF kids) = attrSHVals attrs ++ shValsF kids
          rw [alt_shF kids]
      · show attrSHVals attrs ++ shValsF (altF kids) = attrSHVals attrs ++ shValsF kids
        rw [alt_shF kids]
    · show attrSHVals attrs ++ shValsF (altF kids) = attrSHVals attrs ++ shValsF kids
      rw [alt_shF kids]
termination_by structural n
theorem alt_shF (f : HForest) : shValsF (altF f) = shValsF f := by
  cases f with
  | fnil => rfl
  | fcons n f2 =>
    show shValsN (altN n) ++ shValsF (altF f2) = shValsN n ++ shValsF f2
    rw [alt_shN n, alt_shF f2]
termination_by structural f
end

mutual
theorem heading_shN (n : HNode) (v : List Char) (h : v ∈ shValsN (headingN n)) :
    v ∈ shValsN n := by
  cases n with
  | htext s => exact h
  | helem tag attrs kids =>
    unfold headingN at h
    split at h
    · have h' : v ∈ attrSHVals attrs ++ ([] ++ ([] : List (List Char))) := h
      show v ∈ attrSHVals attrs ++ shValsF kids
      rw [List.mem_append]
      exact Or.inl (by simpa using h')
    · have h' : v ∈ attrSHVals attrs ++ shValsF (headingF kids) := h
      show v ∈ attrSHVals attrs ++ shValsF kids
      rw [List.mem_append] at h' ⊢
      rcases h' with h' | h'
      · exact Or.inl h'
      · exact Or.inr (heading_shF kids v h')
termination_by structural n
theorem heading_shF (f : HForest) (v : List Char) (h : v ∈ shValsF (headingF f)) :
    v ∈ shValsF f := by
  cases f with
  | fnil => exact h
  | fcons n f2 =>
    have h' : v ∈ shValsN (headingN n) ++ shValsF (headingF f2) := h
    show v ∈ shValsN n ++ shValsF f2
    rw [List.mem_append] at h' ⊢
    rcases h' with h' | h'
    · exact Or.inl (heading_shN n v h')
    · exact Or.inr (heading_shF f2 v h')
termination_by structural f
end

mutual
theorem sdpl_shN (ctx : WalkCtx) (n : HNode) (v : List Char)
    (h : v ∈ shValsN (sdplN ctx n)) : v ∈ shValsN n := by
  cases n with
  | htext s => exact h
  | helem tag attrs kids =>
    unfold sdplN at h
    split at h
    · split at h
      · have h' : v ∈ attrSHVals attrs ++ ([] ++ ([] : List (List Char))) := h
        show v ∈ attrSHVals attrs ++ shValsF kids
        rw [List.mem_append]
        exact Or.inl (by simpa using h')
      · have h' : v ∈ attrSHVals attrs ++
          shValsF (sdplMixedF (childCtx tag attrs ctx) kids) := h
        show v ∈ attrSHVals attrs ++ shValsF kids
        rw [List.mem_append] at h' ⊢
        rcases h' with h' | h'
        · exact Or.inl h'
        · exact Or.inr (sdplMixed_shF (childCtx tag attrs ctx) kids v h')
    · have h' : v ∈ attrSHVals attrs ++ shValsF (sdplF (childCtx tag attrs ctx) kids) := h
      show v ∈ attrSHVals attrs ++ shValsF kids
      rw [List.mem_append] at h' ⊢
      rcases h' with h' | h'
      · exact Or.inl h'
      · exact Or.inr (sdpl_shF (childCtx tag attrs ctx) kids v h')
termination_by structural n
theorem sdpl_shF (ctx : WalkCtx) (f : HForest) (v : List Char)
    (h : v ∈ shValsF (sdplF ctx f)) : v ∈ shValsF f := by
  cases f with
  | fnil => exact h
  | fcons n f2 =>
    have h' : v ∈ shValsN (sdplN ctx n) ++ shValsF (sdplF ctx f2) := h
    show v ∈ shValsN n ++ shValsF f2
    rw [List.mem_append] at h' ⊢
    rcases h' with h' | h'
    · exact Or.inl (sdpl_shN ctx n v h')
    · exact Or.inr (sdpl_shF ctx f2 v h')
termination_by structural f
theorem sdplMixed_shF (ctx : WalkCtx) (f : HForest) (v : List Char)
    (h : v ∈ shValsF (sdplMixedF ctx f)) : v ∈ shValsF f := by
  cases f with
  | fnil => exact h
  | fcons n f2 =>
    cases n with
    | htext s =>
      have h' : v ∈ ([] : List (List Char)) ++ shValsF (sdplMixedF ctx f2) := h
      show v ∈ ([] : List (List Char)) ++ shValsF f2
      rw [List.nil_append] at h' ⊢
      exact sdplMixed_shF ctx f2 v h'
    | helem tag attrs kids =>
      have h' : v ∈ shValsN (sdplN ctx (.helem tag attrs kids)) ++
        shValsF (sdplMixedF ctx f2) := h
      show v ∈ shValsN (.helem tag attrs kids) ++ shValsF f2
      rw [List.mem_append] at h' ⊢
      rcases h' with h' | h'
      · exact Or.inl (sdpl_shN ctx _ v h')
      · exact Or.inr (sdplMixed_shF ctx f2 v h')
termination_by structural f
end

mutual
theorem data_shN (n : HNode) : shValsN (dataN n) = shValsN n := by
  cases n with
  | htext s => rfl
  | helem tag attrs kids =>
    show attrSHVals (dataAttrStep "data-content".data
        (dataAttrStep "data-text".data (dataAttrStep "data-title".data attrs))) ++
        shValsF (dataF kids) = attrSHVals attrs ++ shValsF kids
    rw [attrSHVals_dataStep _ _ (by decide) (by decide),
      attrSHVals_dataStep _ _ (by decide) (by decide),
      attrSHVals_dataStep _ _ (by decide) (by decide), data_shF kids]
termination_by structural n
theorem data_shF (f : HForest) : shValsF (dataF f) = shValsF f := by
  cases f with
  | fnil => rfl
  | fcons n f2 =>
    show shValsN (dataN n) ++ shValsF (dataF f2) = shValsN n ++ shValsF f2
    rw [data_shN n, data_shF f2]
termination_by structural f
end

theorem replaceBrandingF_sh (f : HForest) (v : List Char)
    (h : v ∈ shValsF (replaceBrandingF f)) : v ∈ shValsF f := by
  unfold replaceBrandingF at h
  rw [data_shF] at h
  have h2 := sdpl_shF rootCtx _ v h
  have h3 := heading_shF _ v h2
  rw [alt_shF] at h3
  have h4 := title_shF _ v h3
  rw [walk_shF] at h4
  exact h4

mutual
theorem walkN_texts (ctx : WalkCtx) (n : HNode) :
    textsN ctx (walkN ctx n) = (textsN ctx n).map brandTextRule := by
  cases n with
  | htext s =>
    show textsN ctx (walkN ctx (.htext s)) = [brandTextRule (ctx, s)]
    unfold walkN brandTextRule
    cases hs : skipText ctx with
    | true => simp [textsN]
    | false =>
      cases hu : urlLike s with
      | true => simp [textsN]
      | false => simp [textsN]
  | helem tag attrs kids =>
    show textsF (childCtx tag attrs ctx) (walkF (childCtx tag attrs ctx) kids) =
      (textsF (childCtx tag attrs ctx) kids).map brandTextRule
    exact walkF_texts (childCtx tag attrs ctx) kids
termination_by structural n
theorem walkF_texts (ctx : WalkCtx) (f : HForest) :
    textsF ctx (walkF ctx f) = (textsF ctx f).map brandTextRule := by
  cases f with
  | fnil => rfl
  | fcons n f2 =>
    show textsN ctx (walkN ctx n) ++ textsF ctx (walkF ctx f2) =
      (textsN ctx n ++ textsF ctx f2).map brandTextRule
    rw [List.map_append, walkN_texts ctx n, walkF_texts ctx f2]
termination_by structural f
end

/-- C5 (counterexample): the walker also skips text whose parent carries a
`src` attribute without being an anchor: in
`<section src="u">allure digital</section>` the text node sits under a
non-script parent and is not URL-like — the claim requires the brand to be
replaced — yet replaceBranding returns the input unchanged. -/
theorem C5_counterexample :
    replaceBranding "<section src=\"u\">allure digital</section>" =
      "<section src=\"u\">allure digital</section>" ∧
    textsF rootCtx (parseHTML "<section src=\"u\">allure digital</section>".data) =
      [(⟨"section".data, true, false, false, false⟩, "allure digital".data)] ∧
    urlLike "allure digital".data = false ∧
    brandReplace "allure digital".data = "Rimalweb".data := by
  refine ⟨by decide, by decide, by decide, by decide⟩

/-- C5 (amended): the walker pass maps every text node (in its walk context)
by: keep the text when the parent is script/style/noscript, OR the parent
carries src and is not an anchor, OR the node is inside an img with no
enclosing a[href], OR the parent carries href and is not an anchor, OR the
text is URL-like; otherwise apply the word-bounded case-insensitive brand
replacements. The whole six-pass replaceBranding never introduces a new
src/href attribute value (it may drop some when flattening). In injected
meta content the final `/alluredigital\.net/gi → rimalweb.com` replacement
is preempted: the earlier `/AllureDigital/gi` pass already rewrites the
`alluredigital` inside the domain, yielding `Rimalweb.net`, not
`rimalweb.com`. -/
theorem C5_branding_amended :
    (∀ (ctx : WalkCtx) (f : HForest),
      textsF ctx (walkF ctx f) = (textsF ctx f).map brandTextRule) ∧
    (∀ (f : HForest) (v : List Char),
      v ∈ shValsF (replaceBrandingF f) → v ∈ shValsF f) ∧
    metaContentReplace "Allure Digital - https://alluredigital.net/about".data =
      "Rimalweb - https://Rimalweb.net/about".data := by
  exact ⟨walkF_texts, replaceBrandingF_sh, by decide⟩

/-- C5 witness: the walker rule and the src/href preservation at concrete
inputs. -/
theorem C5_branding_amended_witness :
    textsF rootCtx (walkF rootCtx (parseHTML "<p>allure digital</p>".data)) =
      (textsF rootCtx (parseHTML "<p>allure digital</p>".data)).map brandTextRule ∧
    "u".data ∈ shValsF (parseHTML "<a href=\"u\">allure digital</a>".data) := by
  refine ⟨C5_branding_amended.1 rootCtx _, ?_⟩
  refine C5_branding_amended.2.1 (parseHTML "<a href=\"u\">allure digital</a>".data)
    "u".data ?_
  decide

theorem isPrefCI_mono (p q s : List Char) (h : isPrefCI (p ++ q) s = true) :
    isPrefCI p s = true := by
  induction p generalizing s with
  | nil => rfl
  | cons a p ih =>
    cases s with
    | nil => exact absurd h (by simp [isPrefCI])
    | cons b t =>
      show (lowChar a == lowChar b && isPrefCI p t) = true
      have h' : (lowChar a == lowChar b && isPrefCI (p ++ q) t) = true := h
      rw [Bool.and_eq_true] at h' ⊢
      exact ⟨h'.1, ih t h'.2⟩

theorem tryUrl_none (s : List Char) (h : isPrefCI "http".data s = false) :
    tryUrl s = none := by
  have h1 : isPrefCI "https://".data s = false := by
    by_contra hc
    rw [Bool.not_eq_false] at hc
    have he : ("https://".data : List Char) = "http".data ++ "s://".data := by decide
    rw [he] at hc
    rw [isPrefCI_mono _ _ s hc] at h
    exact absurd h (by simp)
  have h2 : isPrefCI "http://".data s = false := by
    by_contra hc
    rw [Bool.not_eq_false] at hc
    have he : ("http://".data : List Char) = "http".data ++ "://".data := by decide
    rw [he] at hc
    rw [isPrefCI_mono _ _ s hc] at h
    exact absurd h (by simp)
  unfold tryUrl
  rw [h1, h2]
  rfl

theorem rduGo_id (esc : Bool) (s : List Char) (h : hasSubCI "http".data s = false) :
    rduGo esc 0 s = s := by
  induction s with
  | nil => rfl
  | cons c t ih =>
    unfold hasSubCI at h
    rw [Bool.or_eq_false_iff] at h
    unfold rduGo
    rw [tryUrl_none (c :: t) h.1]
    show c :: rduGo esc 0 t = c :: t
    rw [ih h.2]

/-- C10 (counterexample): a JSON-parse failure does NOT leave the attribute
unchanged: on the invalid-JSON value `xx https://alluredigital.net/y.png`
the inner catch substitutes the domain URL in the raw string, so the
emitted attribute differs from the original — parse throwing is a step of
the pipeline that is not atomic in the claimed sense. -/
theorem C10_counterexample :
    (jsonParse (decodeEntities "xx https://alluredigital.net/y.png".data)).isNone = true ∧
    dataSettingsRewrite "xx https://alluredigital.net/y.png".data =
      dataSettingsAttr "xx /assets/alluredigital.net_y.png".data ∧
    dataSettingsRewrite "xx https://alluredigital.net/y.png".data ≠
      dataSettingsAttr "xx https://alluredigital.net/y.png".data := by
  refine ⟨by decide, by decide, by decide⟩

/-- C10 (amended): only a throw that reaches the outer catch (in this
pipeline: the TypeError from reading a property of a `null` parse result)
emits the attribute with its original value unchanged; a JSON-parse failure
instead takes the inner catch, which substitutes domain URLs in the raw
attribute value — and that substitution leaves any value without an
`http` (case-insensitive) substring entirely unchanged. -/
theorem C10_atomicity_amended :
    (∀ s : List Char, pipelineThrows s = true →
      dataSettingsRewrite s = dataSettingsAttr s) ∧
    (∀ s : List Char, (jsonParse (decodeEntities s)).isNone = true →
      dataSettingsRewrite s = dataSettingsAttr (replaceDomainUrls true s)) ∧
    (∀ s : List Char, hasSubCI "http".data s = false →
      replaceDomainUrls true s = s) := by
  refine ⟨?_, ?_, ?_⟩
  · intro s h
    unfold pipelineThrows at h
    cases hp : dataSettingsPipeline s with
    | ok v =>
      rw [hp] at h
      have h' : false = true := h
      exact absurd h' (by decide)
    | error e =>
      simp only [dataSettingsRewrite, hp]
  · intro s h
    rw [Option.isNone_iff_eq_none] at h
    simp only [dataSettingsRewrite, dataSettingsPipeline, h]
  · intro s h
    exact rduGo_id true s h

/-- C10 witness: the outer-catch atomicity at the value `null` (whose parse
succeeds and whose property read throws), the invalid-JSON equation at
`xx`, and raw-branch preservation at `abc`. -/
theorem C10_atomicity_amended_witness :
    dataSettingsRewrite "null".data = dataSettingsAttr "null".data ∧
    dataSettingsRewrite "xx".data = dataSettingsAttr (replaceDomainUrls true "xx".data) ∧
    replaceDomainUrls true "abc".data = "abc".data :=
  ⟨C10_atomicity_amended.1 "null".data (by decide),
   C10_atomicity_amended.2.1 "xx".data (by decide),
   C10_atomicity_amended.2.2 "abc".data (by decide)⟩

end Runway
